import Mathlib

/-!
# Verification of the protobuf.js fork: root loader and decoder builder

This file gives a shallow embedding of the two source files of the
repository, `src/root.js` (the schema loader) and `src/decoder.js` (the
wire-format decoder builder), together with proofs of the behavioural
properties stated in the specification.

External collaborators that the specification declares out of scope
(the `.proto` parse collaborator, the fetch collaborator, the filesystem
read primitive and the bundled well-known-type table) are abstracted as
an environment of pure functions; the loader's control flow, dedup,
weak-import handling and callback discipline are embedded faithfully
from `src/root.js`.
-/

namespace Protobuf

/-! ## Sources and the collaborator environment -/

/-- A fetched file body: either raw `.proto` text (handled by the parse
collaborator) or a JSON descriptor object (ingested via `addJSON`,
contributing no imports).  Bundled well-known types are descriptor
objects. -/
inductive Source where
  | text (s : String)
  | desc (d : String)
deriving DecidableEq, Repr

/-- The loader's external collaborators, fixed for one load:
`common` is the bundled table keyed by canonical name, `resolvePath`
mirrors `Root.prototype.resolvePath` (`null` is `none`), `fetchRes` is
the asynchronous fetch collaborator's eventual result for a path,
`fsRead` is the synchronous read primitive, `parseRes` gives the parse
collaborator's result (imports, weakImports) for a filename and source,
and `jsonRes` is the outcome of `JSON.parse` on a string source starting
with `{`.  Errors are represented by their message strings. -/
structure Env where
  common : List (String × Source)
  resolvePath : String → String → Option String
  fetchRes : String → Except String String
  fsRead : String → Except String String
  parseRes : String → String → Except String (List String × List String)
  jsonRes : String → Except String Unit

/-- Whether the first list is a prefix of the second (character-wise). -/
def isPrefixList : List Char → List Char → Bool
  | [], _ => true
  | _ :: _, [] => false
  | a :: as, b :: bs => a = b && isPrefixList as bs

/-- The suffix of `s` starting at the *last* occurrence of `pat`
(`lastIndexOf` followed by `substring`), or `none` if `pat` does not
occur. -/
def suffixFromLast (pat : List Char) : List Char → Option (List Char)
  | [] => none
  | c :: cs =>
    match suffixFromLast pat cs with
    | some r => some r
    | none => if isPrefixList pat (c :: cs) then some (c :: cs) else none

/-- `charAt(0) === "{"`. -/
def startsWithBrace (s : String) : Bool :=
  match s.data with
  | c :: _ => c = '{'
  | [] => false

/-- `getBundledFileName` from `src/root.js`: the suffix of the filename
starting at the last occurrence of `google/protobuf/`, provided that
suffix is a key of the bundled table; otherwise `none`. -/
def getBundledFileName (env : Env) (filename : String) : Option String :=
  match suffixFromLast "google/protobuf/".data filename.data with
  | some suffix =>
    let altname := String.mk suffix
    if (env.common.lookup altname).isSome then some altname else none
  | none => none

/-- `getBundled` from `src/root.js`: fetch a bundled definition, trying
the canonical name first and the filename itself second. -/
def getBundled (env : Env) (filename : String) : Option Source :=
  let filename := (getBundledFileName env filename).getD filename
  env.common.lookup filename

/-- Resolution of one import inside `processSingleFile`
(`src/root.js` lines 109 and 116):
`getBundledFileName(target) || resolvePath(origin, target)`. -/
def resolveImport (env : Env) (origin target : String) : Option String :=
  match getBundledFileName env target with
  | some alt => some alt
  | none => env.resolvePath origin target

/-- The import-resolution loops of `processSingleFile`: resolve each
import, dropping those that resolve to `null`, and tag each with the
weak flag. -/
def resolveImportList (env : Env) (origin : String) (targets : List String)
    (weak : Bool) : List (String × Bool) :=
  targets.filterMap fun t => (resolveImport env origin t).map fun r => (r, weak)

/-- The message of the JavaScript `TypeError` thrown when
`processSingleFile` receives `undefined` as source and evaluates
`source.options`. -/
def jsTypeErrorUndefinedSource : String :=
  "TypeError: Cannot read properties of undefined (reading 'options')"

/-- `processSingleFile` from `src/root.js`: parse one file and return
the next resolved imports `(filename, weak)`, strong imports first.
A string source starting with `{` goes through `JSON.parse`; a
non-string source is ingested as a descriptor with no imports.
An `undefined` source (which the synchronous loader produces for an
already-loaded file) makes the JavaScript code dereference
`source.options` and throw a `TypeError`; that throw is embedded as the
corresponding error value. -/
def processSingleFile (env : Env) (filename : String) (source : Option Source) :
    Except String (List (String × Bool)) :=
  match source with
  | none => .error jsTypeErrorUndefinedSource
  | some (.desc _) => .ok []
  | some (.text s) =>
    if startsWithBrace s then
      match env.jsonRes s with
      | .error e => .error e
      | .ok _ => .ok []
    else
      match env.parseRes filename s with
      | .error e => .error e
      | .ok (imps, weakImps) =>
        .ok (resolveImportList env filename imps false ++
             resolveImportList env filename weakImps true)

/-! ## The asynchronous loader (`Root.prototype.load`)

The work stack holds, per `src/root.js`: parse-work items, the
`IMPORT_IN_FLIGHT` marker, the `IMPORT_NOOP` marker, and error objects.
Because the environment is a fixed function, the value a pending fetch
will eventually deliver is determined at dispatch time; an in-flight
slot therefore carries the content it will be filled with, and the
scheduling nondeterminism is which in-flight slot completes next. -/

/-- What a completed fetch leaves in its reserved stack slot:
`IMPORT_NOOP`, an error object, or a parse-work item. -/
inductive FillResult where
  | noop
  | fail (e : String)
  | work (filename : String) (source : Source)
deriving DecidableEq, Repr

/-- A stack slot: reserved but not yet completed (`IMPORT_IN_FLIGHT`),
or filled with its completion. -/
inductive Slot where
  | inflight (c : FillResult)
  | filled (c : FillResult)
deriving DecidableEq, Repr

/-- The mutable state of one `Root.prototype.load` invocation.  The head
of `stack` is the top of the work stack.  `files` is the per-Root list
of resolved filenames.  `callbackLog` records each user-callback
invocation as (error, whether the root was passed).  `processLog`
records each `processSingleFile` invocation, `dispatchLog` each
`fetchOneFile` dispatch with its weak flag, and `fetchLog` each
invocation of the fetch collaborator. -/
structure LoadState where
  files : List String
  stack : List Slot
  callbackCalled : Bool
  callbackLog : List (Option String × Bool)
  processLog : List (String × Option Source)
  dispatchLog : List (String × Bool)
  fetchLog : List String
deriving DecidableEq, Repr

/-- `finish` from `src/root.js`: call the user callback at most once,
with `(err, null)` on error and `(null, root)` on success. -/
def finish (e : Option String) (s : LoadState) : LoadState :=
  if s.callbackCalled then s
  else { s with
          callbackCalled := true
          callbackLog := s.callbackLog ++ [(e, e.isNone)] }

/-- `fetchOneFile` combined with `fetchSingleFileAsync` from
`src/root.js`: reserve a slot on the stack and determine what its
completion will deliver.  An already-listed filename completes with
`undefined` (a no-op); otherwise the filename is pushed onto `files`
first, a bundled definition completes immediately, and only then is the
fetch collaborator consulted — a failed fetch becomes a no-op for a
weak import and an error object otherwise. -/
def fetchOneFile (env : Env) (filename : String) (weak : Bool)
    (s : LoadState) : LoadState :=
  if filename ∈ s.files then
    { s with
        stack := .inflight .noop :: s.stack
        dispatchLog := s.dispatchLog ++ [(filename, weak)] }
  else
    match getBundled env filename with
    | some src =>
      { s with
          files := s.files ++ [filename]
          stack := .inflight (.work filename src) :: s.stack
          dispatchLog := s.dispatchLog ++ [(filename, weak)] }
    | none =>
      { s with
          files := s.files ++ [filename]
          stack := .inflight
            (match env.fetchRes filename with
             | .error e => if weak then .noop else .fail e
             | .ok txt => .work filename (.text txt)) :: s.stack
          dispatchLog := s.dispatchLog ++ [(filename, weak)]
          fetchLog := s.fetchLog ++ [filename] }

/-- Dispatch a list of resolved imports in the given order (the caller
passes the reversed list, matching the backwards loops in
`src/root.js`). -/
def dispatchList (env : Env) (items : List (String × Bool))
    (s : LoadState) : LoadState :=
  items.foldl (fun st p => fetchOneFile env p.1 p.2 st) s

/-- Number of filled slots on the stack; the termination measure of the
`doParseWork` drain loop. -/
def countFilled (stack : List Slot) : Nat :=
  (stack.filter fun sl => match sl with | .filled _ => true | _ => false).length

/-- The drain loop of `doParseWork` from `src/root.js`, with explicit
fuel (each iteration consumes one filled slot, so `countFilled + 1` fuel
always suffices; see `goParse_head` below).  Pops the stack until it is
empty (success), an in-flight slot is on top (wait), an error object is
popped (first fatal error), or a parse fails. -/
def goParse (env : Env) : Nat → LoadState → LoadState
  | 0, s => s
  | fuel+1, s =>
    if s.callbackCalled then s
    else
      match s.stack with
      | [] => finish none s
      | .inflight _ :: _ => s
      | .filled .noop :: rest => goParse env fuel { s with stack := rest }
      | .filled (.fail e) :: rest => finish (some e) { s with stack := rest }
      | .filled (.work fn src) :: rest =>
        let s1 : LoadState :=
          { s with stack := rest, processLog := s.processLog ++ [(fn, some src)] }
        match processSingleFile env fn (some src) with
        | .error e => finish (some e) s1
        | .ok imps => goParse env fuel (dispatchList env imps.reverse s1)

/-- `doParseWork` from `src/root.js`: run the drain loop (the supplied
fuel is exactly sufficient). -/
def doParseWork (env : Env) (s : LoadState) : LoadState :=
  goParse env (countFilled s.stack + 1) s

/-- Resolution of an initial filename in `load` and `loadSync`
(`src/root.js` lines 259 and 313):
`getBundledFileName(f) || resolvePath("", f)`. -/
def resolveInitial (env : Env) (filename : String) : Option String :=
  match getBundledFileName env filename with
  | some alt => some alt
  | none => env.resolvePath "" filename

/-- The initial dispatch loop of `load`: resolve and fetch the initial
files backwards, skipping those that resolve to `null`. -/
def dispatchInitial (env : Env) (filenames : List String) (s : LoadState) :
    LoadState :=
  filenames.reverse.foldl
    (fun st fn =>
      match resolveInitial env fn with
      | some r => fetchOneFile env r false st
      | none => st) s

/-- The body of `Root.prototype.load` up to its return: dispatch the
initial files backwards (skipping those that resolve to `null`) and, if
the stack is still empty, fire the callback immediately. -/
def loadInit (env : Env) (filenames : List String) : LoadState :=
  let s1 := dispatchInitial env filenames ⟨[], [], false, [], [], [], []⟩
  if s1.stack.length = 0 then finish none s1 else s1

/-- Fill the in-flight slot at position `i` with its completion. -/
def fillSlot (i : Nat) (c : FillResult) (s : LoadState) : LoadState :=
  { s with stack := s.stack.set i (.filled c) }

/-- One scheduling step of the asynchronous loader: some pending fetch
completes — its slot is filled with the prepared content and
`doParseWork` drains the stack. -/
inductive Step (env : Env) : LoadState → LoadState → Prop
  | fill (s : LoadState) (i : Nat) (c : FillResult)
      (h : s.stack[i]? = some (.inflight c)) :
      Step env s (doParseWork env (fillSlot i c s))

/-- All states reachable from `load`'s initialization under some
interleaving of fetch completions. -/
def Reachable (env : Env) (filenames : List String) (s : LoadState) : Prop :=
  Relation.ReflTransGen (Step env) (loadInit env filenames) s

/-- No fetch completion is pending: every slot has been filled. -/
def Quiescent (s : LoadState) : Prop :=
  ∀ sl ∈ s.stack, ∀ c, sl ≠ Slot.inflight c

/-! ## The synchronous loader (`Root.prototype.loadSync`) -/

/-- Observable state of one `loadSync` invocation: the per-Root `files`
list plus logs mirroring the asynchronous ones. -/
structure SyncState where
  files : List String
  processLog : List (String × Option Source)
  dispatchLog : List (String × Bool)
  fetchLog : List String
deriving DecidableEq, Repr

/-- How a `loadSync` run ended: normally, by throwing, or (a model
artifact) by running out of fuel. -/
inductive SyncOutcome where
  | done
  | threw (e : String)
  | fuelOut
deriving DecidableEq, Repr

/-- `fetchSingleFileSync` from `src/root.js`: an already-listed filename
yields `undefined` (`none`); otherwise the filename is pushed onto
`files`, a bundled definition is returned if present, and the
synchronous read primitive is consulted last. -/
def fetchSingleFileSync (env : Env) (st : SyncState) (filename : String) :
    SyncState × Except String (Option Source) :=
  if filename ∈ st.files then (st, .ok none)
  else
    let st := { st with files := st.files ++ [filename] }
    match getBundled env filename with
    | some b => (st, .ok (some b))
    | none =>
      let st := { st with fetchLog := st.fetchLog ++ [filename] }
      match env.fsRead filename with
      | .error e => (st, .error e)
      | .ok s => (st, .ok (some (.text s)))

/-- The work loop of `loadSync` (`src/root.js` lines 318-335), with
fuel for the unbounded import chase.  Pop `{filename, weak}`; a fetch
failure is skipped for a weak entry and thrown otherwise; the popped
file is processed (note: `processSingleFile` throws are *not* guarded)
and its resolved imports are pushed backwards. -/
def loadSyncLoop (env : Env) :
    Nat → SyncState → List (String × Bool) → SyncState × SyncOutcome
  | 0, st, stack =>
    match stack with
    | [] => (st, .done)
    | _ :: _ => (st, .fuelOut)
  | _+1, st, [] => (st, .done)
  | fuel+1, st, (fn, weak) :: stack =>
    match fetchSingleFileSync env
        { st with dispatchLog := st.dispatchLog ++ [(fn, weak)] } fn with
    | (st2, .error e) =>
      if weak then loadSyncLoop env fuel st2 stack
      else (st2, .threw e)
    | (st2, .ok osrc) =>
      match processSingleFile env fn osrc with
      | .error e => ({ st2 with processLog := st2.processLog ++ [(fn, osrc)] }, .threw e)
      | .ok imps =>
        loadSyncLoop env fuel
          { st2 with processLog := st2.processLog ++ [(fn, osrc)] } (imps ++ stack)

/-- `Root.prototype.loadSync`: resolve the initial filenames backwards
onto the stack (skipping `null` resolutions) and run the work loop. -/
def loadSyncRun (env : Env) (fuel : Nat) (filenames : List String) :
    SyncState × SyncOutcome :=
  loadSyncLoop env fuel ⟨[], [], [], []⟩
    ((filenames.filterMap (resolveInitial env)).map fun fn => (fn, false))

/-! ## The decoder builder (`src/decoder.js`) -/

/-- `tag` from `src/decoder.js`: `(fieldId * 8) + wireType`, arithmetic
rather than bit operations so that the result is exact for field ids up
to `2^29 - 1`. -/
def tag (fieldId wireType : Nat) : Nat :=
  fieldId * 8 + wireType

/-- The `LEN_TYPE` wire-type constant of `src/decoder.js`. -/
def LEN_TYPE : Nat := 2
/-- The `SGROUP_TYPE` wire-type constant of `src/decoder.js`. -/
def SGROUP_TYPE : Nat := 3
/-- The `EGROUP_TYPE` wire-type constant of `src/decoder.js`. -/
def EGROUP_TYPE : Nat := 4

/-- `missing` from `src/decoder.js`: the message of the `ProtocolError`
raised for an absent required field. -/
def missingMsg (name : String) : String :=
  "missing required '" ++ name ++ "'"

/-! ## Scalar types and the wire-type tables

Modelled from the spec: the `types.basic` / `types.packed` /
`types.long` / `types.defaults` tables live in `types.js`, which is not
under `src/`; they are reproduced here from the specification's wire
format section (varint 0, fixed64 1, length-delimited 2, fixed32 5;
packed applies to every numeric/bool primitive, long to the 64-bit
integers). -/

inductive ScalarType where
  | double | float
  | int32 | uint32 | sint32 | fixed32 | sfixed32
  | int64 | uint64 | sint64 | fixed64 | sfixed64
  | boolT | stringT | bytesT
deriving DecidableEq, Repr

/-- `types.basic`: the wire type used for a scalar field. -/
def wireBasic : ScalarType → Nat
  | .double => 1
  | .float => 5
  | .int32 | .uint32 | .sint32 => 0
  | .fixed32 | .sfixed32 => 5
  | .int64 | .uint64 | .sint64 => 0
  | .fixed64 | .sfixed64 => 1
  | .boolT => 0
  | .stringT | .bytesT => 2

/-- Whether `types.packed` is defined for a scalar (every primitive
except `string` and `bytes` is packable). -/
def packedOf : ScalarType → Bool
  | .stringT | .bytesT => false
  | _ => true

/-- Whether `types.long` is defined for a scalar (the 64-bit integer
types, whose map keys go through `util.longToHash`). -/
def longOf : ScalarType → Bool
  | .int64 | .uint64 | .sint64 | .fixed64 | .sfixed64 => true
  | _ => false

/-! ## Decoded primitive values and messages -/

/-- A decoded primitive value.  64-bit integers are represented exactly
(the source returns a value carrying both halves); `float`/`double`
carry their raw little-endian bit patterns, and `string` its raw UTF-8
bytes. -/
inductive PVal where
  | vInt (i : Int)
  | vNat (n : Nat)
  | vBool (b : Bool)
  | vStr (bs : List Nat)
  | vBytes (bs : List Nat)
  | vF32 (bits : Nat)
  | vF64 (bits : Nat)
deriving DecidableEq, Repr

/-- `types.defaults`: the per-type default used for absent map keys and
values. -/
def defaultP : ScalarType → PVal
  | .int32 | .sint32 | .sfixed32 | .int64 | .sint64 | .sfixed64 => .vInt 0
  | .uint32 | .fixed32 | .uint64 | .fixed64 => .vNat 0
  | .boolT => .vBool false
  | .stringT => .vStr []
  | .bytesT => .vBytes []
  | .float => .vF32 0
  | .double => .vF64 0

/-- A decoded message field value: a primitive, `null` (the default for
an absent message-typed map value), a nested message, a repeated list,
or a map object. -/
inductive MVal where
  | prim (p : PVal)
  | nullV
  | msgV (flds : List (String × MVal))
  | listV (vs : List MVal)
  | mapV (entries : List (String × MVal))

/-- A decoded message: its own properties in insertion order
(`hasOwnProperty` is key membership here; prototype defaults are not
own properties). -/
abbrev Message := List (String × MVal)

/-- Own-property read. -/
def getOwn (m : Message) (k : String) : Option MVal :=
  m.lookup k

/-- Own-property write: JavaScript assignment keeps the insertion
position of an existing key and appends a new one. -/
def setOwn (m : Message) (k : String) (v : MVal) : Message :=
  match m with
  | [] => [(k, v)]
  | (k', v') :: rest => if k' = k then (k, v) :: rest else (k', v') :: setOwn rest k v

/-! ## Field and message descriptors (resolved schema) -/

/-- The resolved type of a field as the decoder builder sees it: a
primitive, an enum (decoded exactly as `int32`), or a message type
referenced by registry index with its group flag. -/
inductive FieldKind where
  | prim (t : ScalarType)
  | enumK
  | msgK (idx : Nat) (group : Bool)
deriving DecidableEq, Repr

/-- Cardinality, with map fields carrying their key type. -/
inductive FieldRule where
  | optionalR
  | requiredR
  | repeatedR
  | mapR (keyType : ScalarType)
deriving DecidableEq, Repr

/-- A resolved field.  `packedOpt` is the schema's `[packed=...]`
preference; the decoder builder never consults it (both packed and
unpacked forms are always accepted). -/
structure FieldDesc where
  name : String
  id : Nat
  kind : FieldKind
  rule : FieldRule
  packedOpt : Bool
deriving DecidableEq, Repr

/-- A resolved message type. -/
structure MType where
  name : String
  group : Bool
  fields : List FieldDesc
deriving DecidableEq, Repr

/-- The `type` string the builder works with after the enum fold
(`field.resolvedType instanceof Enum ? "int32" : field.type`): `some`
scalar for primitives and enums, `none` for message types (for which
`types.basic[type]` is `undefined`). -/
def effScalar : FieldKind → Option ScalarType
  | .prim t => some t
  | .enumK => some .int32
  | .msgK _ _ => none

/-- `types.basic[type]` for a field, `none` when undefined. -/
def basicWireType (f : FieldDesc) : Option Nat :=
  (effScalar f.kind).map wireBasic

/-- Whether `types.packed[type] !== undefined` holds for a field. -/
def packedCapable (f : FieldDesc) : Bool :=
  match effScalar f.kind with
  | some t => packedOf t
  | none => false

/-- The wire tag of the field's primary generated `case`:
`tag(id, 2)` for maps, `tag(id, 3)`/`tag(id, 2)` for groups/messages,
`tag(id, basic[type])` for primitives and enums — per the `case`
labels emitted by `decoder` in `src/decoder.js`. -/
def primaryTag (f : FieldDesc) : Nat :=
  match f.rule with
  | .mapR _ => tag f.id LEN_TYPE
  | _ =>
    match f.kind with
    | .prim t => tag f.id (wireBasic t)
    | .enumK => tag f.id (wireBasic .int32)
    | .msgK _ g => tag f.id (if g then SGROUP_TYPE else LEN_TYPE)

/-- Whether the builder emits the additional packed `case tag(id, 2)`
for this field: exactly for repeated fields whose (possibly
enum-folded) type is packable — independent of `packedOpt`. -/
def hasPackedCase (f : FieldDesc) : Bool :=
  (match f.rule with | .repeatedR => true | _ => false) && packedCapable f

/-- Which of a field's generated `case`s a tag hits. -/
inductive CaseKind where
  | primaryC
  | packedC
deriving DecidableEq, Repr

/-- Match a wire tag against the `case`s generated for one field, in
their emission order (primary first, then the packed case). -/
def fieldMatches (f : FieldDesc) (t : Nat) : Option CaseKind :=
  if t = primaryTag f then some .primaryC
  else if hasPackedCase f = true ∧ t = tag f.id LEN_TYPE then some .packedC
  else none

/-- The generated `switch` dispatch: the first field (in declaration
order) one of whose cases carries the tag. -/
def findCase : List FieldDesc → Nat → Option (FieldDesc × CaseKind)
  | [], _ => none
  | f :: rest, t =>
    match fieldMatches f t with
    | some ck => some (f, ck)
    | none => findCase rest t

/-- The map-entry key `case` label: `tag(1, types.basic[keyType])`. -/
def mapKeyCaseTag (keyType : ScalarType) : Nat :=
  tag 1 (wireBasic keyType)

/-- The map-entry value `case` label from `src/decoder.js`:
`tag(2, basicWireType === undefined ? LEN_TYPE : basicWireType)` —
computed from the value type alone. -/
def mapValueCaseTag (vk : FieldKind) : Nat :=
  match effScalar vk with
  | none => tag 2 LEN_TYPE
  | some t => tag 2 (wireBasic t)

/-! ## The Reader

Modelled from the spec: `reader.js` is not under `src/`; the cursor,
varint, fixed and length-delimited reads and `skipType` follow §4.1 of
the specification (varint little-endian base-128, `Truncated` at end of
buffer, `Malformed` past ten varint bytes or on a reserved wire
type). -/

/-- Decode-time failures.  `outOfFuel` is a model artifact marking fuel
exhaustion of the embedded interpreter; it is never produced when the
interpreter is run with sufficient fuel. -/
inductive DecErr where
  | truncated
  | malformed
  | protocolError (msg : String) (inst : Message)
  | outOfFuel

/-- A cursor over an immutable byte buffer. -/
structure Reader where
  buf : List Nat
  pos : Nat
deriving Repr

/-- Varint read: up to `count` base-128 bytes, little-endian, `mult`
being the place value of the next byte. -/
def readVarintAux : Nat → Reader → Nat → Nat → Except DecErr (Nat × Reader)
  | 0, _, _, _ => .error .malformed
  | count+1, r, mult, acc =>
    match r.buf[r.pos]? with
    | none => .error .truncated
    | some b =>
      let r' : Reader := { r with pos := r.pos + 1 }
      if b < 128 then .ok (acc + b * mult, r')
      else readVarintAux count r' (mult * 128) (acc + b % 128 * mult)

/-- A full varint (at most ten bytes). -/
def readVarint (r : Reader) : Except DecErr (Nat × Reader) :=
  readVarintAux 10 r 1 0

/-- `uint32`: a varint truncated to its low 32 bits. -/
def readUint32 (r : Reader) : Except DecErr (Nat × Reader) :=
  (readVarint r).map fun p => (p.1 % 2 ^ 32, p.2)

/-- Little-endian fixed-width read of `n` bytes. -/
def readFixed : Nat → Reader → Except DecErr (Nat × Reader)
  | 0, r => .ok (0, r)
  | n+1, r =>
    match r.buf[r.pos]? with
    | none => .error .truncated
    | some b =>
      match readFixed n { r with pos := r.pos + 1 } with
      | .error e => .error e
      | .ok (rest, r') => .ok (b + 256 * rest, r')

/-- Length-delimited read: a `uint32` length followed by that many
bytes. -/
def readDelim (r : Reader) : Except DecErr (List Nat × Reader) :=
  match readUint32 r with
  | .error e => .error e
  | .ok (len, r') =>
    if r'.pos + len ≤ r'.buf.length then
      .ok ((r'.buf.drop r'.pos).take len, { r' with pos := r'.pos + len })
    else .error .truncated

/-- Reinterpret the low 32 bits as a two's-complement signed value. -/
def asInt32 (n : Nat) : Int :=
  if n % 2 ^ 32 < 2 ^ 31 then ((n % 2 ^ 32 : Nat) : Int)
  else ((n % 2 ^ 32 : Nat) : Int) - 2 ^ 32

/-- Reinterpret the low 64 bits as a two's-complement signed value. -/
def asInt64 (n : Nat) : Int :=
  if n % 2 ^ 64 < 2 ^ 63 then ((n % 2 ^ 64 : Nat) : Int)
  else ((n % 2 ^ 64 : Nat) : Int) - 2 ^ 64

/-- ZigZag decoding over 32 bits. -/
def zig32 (n : Nat) : Int :=
  let u := n % 2 ^ 32
  if u % 2 = 0 then ((u / 2 : Nat) : Int) else -((u / 2 : Nat) : Int) - 1

/-- ZigZag decoding over 64 bits. -/
def zig64 (n : Nat) : Int :=
  let u := n % 2 ^ 64
  if u % 2 = 0 then ((u / 2 : Nat) : Int) else -((u / 2 : Nat) : Int) - 1

/-- `r.<type>()`: read one primitive of the given scalar type. -/
def readScalar (t : ScalarType) (r : Reader) : Except DecErr (PVal × Reader) :=
  match t with
  | .int32 => (readVarint r).map fun p => (.vInt (asInt32 p.1), p.2)
  | .uint32 => (readVarint r).map fun p => (.vNat (p.1 % 2 ^ 32), p.2)
  | .sint32 => (readVarint r).map fun p => (.vInt (zig32 p.1), p.2)
  | .int64 => (readVarint r).map fun p => (.vInt (asInt64 p.1), p.2)
  | .uint64 => (readVarint r).map fun p => (.vNat (p.1 % 2 ^ 64), p.2)
  | .sint64 => (readVarint r).map fun p => (.vInt (zig64 p.1), p.2)
  | .boolT => (readVarint r).map fun p => (.vBool (decide (p.1 % 2 ^ 32 ≠ 0)), p.2)
  | .fixed32 => (readFixed 4 r).map fun p => (.vNat p.1, p.2)
  | .sfixed32 => (readFixed 4 r).map fun p => (.vInt (asInt32 p.1), p.2)
  | .float => (readFixed 4 r).map fun p => (.vF32 p.1, p.2)
  | .fixed64 => (readFixed 8 r).map fun p => (.vNat p.1, p.2)
  | .sfixed64 => (readFixed 8 r).map fun p => (.vInt (asInt64 p.1), p.2)
  | .double => (readFixed 8 r).map fun p => (.vF64 p.1, p.2)
  | .stringT => (readDelim r).map fun p => (.vStr p.1, p.2)
  | .bytesT => (readDelim r).map fun p => (.vBytes p.1, p.2)

/-- `skipType(wireType)`: advance past an unknown field's payload.
Wire type 3 loops reading tags, recursively skipping until an end-group
tag; wire types 4, 6 and 7 are malformed here. -/
def skipTypeF : Nat → Nat → Reader → Except DecErr Reader
  | 0, _, _ => .error .outOfFuel
  | fuel+1, wt, r =>
    match wt with
    | 0 =>
      (match readVarint r with
       | .error e => .error e
       | .ok (_, r') => .ok r')
    | 1 =>
      (match readFixed 8 r with
       | .error e => .error e
       | .ok (_, r') => .ok r')
    | 2 =>
      (match readUint32 r with
       | .error e => .error e
       | .ok (len, r') =>
         if r'.pos + len ≤ r'.buf.length then .ok { r' with pos := r'.pos + len }
         else .error .truncated)
    | 3 =>
      (match readUint32 r with
       | .error e => .error e
       | .ok (t, r') =>
         if t % 8 = EGROUP_TYPE then .ok r'
         else
           match skipTypeF fuel (t % 8) r' with
           | .error e => .error e
           | .ok r'' => skipTypeF fuel 3 r'')
    | 5 =>
      (match readFixed 4 r with
       | .error e => .error e
       | .ok (_, r') => .ok r')
    | _ => .error .malformed

/-! ## The generated decoder, as an interpreter

`decoder(mtype)` in `src/decoder.js` specializes a decode function per
message type; the embedding interprets the same dispatch (tag table,
case actions, required-field checks) directly over the descriptors.
The three recursion modes of the generated code — decode a message,
run the main `while` loop, run a map-entry sub-loop — are one
fuel-structural function over a job type, so that every run is a kernel
computation. -/

/-- Stringification of a decoded map key used as the JavaScript object
index (`typeof k === "object" ? util.longToHash(k) : k`); decoded
byte-wise for string keys. -/
def mapKeyStr (v : PVal) : String :=
  match v with
  | .vInt i => toString i
  | .vNat n => toString n
  | .vBool b => if b then "true" else "false"
  | .vStr bs => String.mk (bs.map Char.ofNat)
  | .vBytes bs => String.mk (bs.map Char.ofNat)
  | .vF32 n => toString n
  | .vF64 n => toString n

/-- The map-entry value default (`types.defaults[type]`, `null` when
undefined, i.e. for message values). -/
def defaultMVal (vk : FieldKind) : MVal :=
  match effScalar vk with
  | some t => .prim (defaultP t)
  | none => .nullV

/-- The current list for a repeated field after the generated
`if(!(m.f&&m.f.length))m.f=[]` guard: the existing own non-empty list,
otherwise a fresh empty one. -/
def curList (m : Message) (name : String) : List MVal :=
  match getOwn m name with
  | some (.listV (v :: vs)) => v :: vs
  | _ => []

/-- The current map object for a map field after the generated
`if(m.f===util.emptyObject)m.f={}` guard. -/
def curMap (m : Message) (name : String) : List (String × MVal) :=
  match getOwn m name with
  | some (.mapV es) => es
  | _ => []

/-- The generated packed-case inner loop: read scalars until the
length limit. -/
def readPackedF (t : ScalarType) : Nat → Nat → Reader → List MVal →
    Except DecErr (List MVal × Reader)
  | 0, _, _, _ => .error .outOfFuel
  | fuel+1, c2, r, acc =>
    if r.pos < c2 then
      match readScalar t r with
      | .error e => .error e
      | .ok (v, r') => readPackedF t fuel c2 r' (acc ++ [.prim v])
    else .ok (acc, r)

/-- The generated required-field epilogue: for each field in
declaration order, if it is required and not an own property, throw
`ProtocolError` carrying the partial instance. -/
def checkRequired : List FieldDesc → Message → Except DecErr Message
  | [], m => .ok m
  | f :: rest, m =>
    match f.rule with
    | .requiredR =>
      (match getOwn m f.name with
       | none => .error (.protocolError (missingMsg f.name) m)
       | some _ => checkRequired rest m)
    | _ => checkRequired rest m

/-- An interpreter job: decode a message (with optional length limit),
run the main decode loop, or run a map-entry sub-loop. -/
inductive DecJob where
  | msgJ (mt : MType) (lim : Option Nat)
  | loopJ (mt : MType) (climit : Nat) (m : Message)
  | entJ (keyType : ScalarType) (vk : FieldKind) (c2 : Nat) (k : PVal) (v : MVal)

/-- An interpreter result: a decoded message, or a map entry's key and
value. -/
inductive DecRes where
  | msgR (m : Message) (r : Reader)
  | entR (k : PVal) (v : MVal) (r : Reader)

/-- The decode interpreter.  `msgJ` computes the end offset, runs the
loop from a fresh instance and applies the required-field checks;
`loopJ` reads a tag (breaking on an end-group tag for group types),
dispatches it through the generated tag table and executes the matched
case, skipping unknown fields; `entJ` is the map-entry sub-loop with
its key case, its value case and its default skip.  A result-shape
mismatch after a nested call cannot occur and is mapped to the fuel
artifact. -/
def decodeGo (reg : List MType) : Nat → DecJob → Reader → Except DecErr DecRes
  | 0, _, _ => .error .outOfFuel
  | fuel+1, .msgJ mt lim, r =>
    let climit := match lim with | none => r.buf.length | some l => r.pos + l
    (match decodeGo reg fuel (.loopJ mt climit []) r with
     | .ok (.msgR m r') =>
       (match checkRequired mt.fields m with
        | .error e => .error e
        | .ok m' => .ok (.msgR m' r'))
     | .ok _ => .error .outOfFuel
     | .error e => .error e)
  | fuel+1, .loopJ mt climit m, r =>
    if r.pos < climit then
      match readUint32 r with
      | .error e => .error e
      | .ok (t, r1) =>
        if mt.group = true ∧ t % 8 = EGROUP_TYPE then .ok (.msgR m r1)
        else
          match findCase mt.fields t with
          | none =>
            (match skipTypeF (r1.buf.length + 1) (t % 8) r1 with
             | .error e => .error e
             | .ok r2 => decodeGo reg fuel (.loopJ mt climit m) r2)
          | some (f, .packedC) =>
            (match effScalar f.kind with
             | none => .error .outOfFuel
             | some st =>
               match readUint32 r1 with
               | .error e => .error e
               | .ok (len, r2) =>
                 match readPackedF st (r2.buf.length + 1) (r2.pos + len) r2
                     (curList m f.name) with
                 | .error e => .error e
                 | .ok (vs, r3) =>
                   decodeGo reg fuel (.loopJ mt climit (setOwn m f.name (.listV vs))) r3)
          | some (f, .primaryC) =>
            match f.rule with
            | .mapR keyT =>
              (match readUint32 r1 with
               | .error e => .error e
               | .ok (len, r2) =>
                 match decodeGo reg fuel
                     (.entJ keyT f.kind (r2.pos + len) (defaultP keyT) (defaultMVal f.kind)) r2 with
                 | .ok (.entR k v r3) =>
                   decodeGo reg fuel (.loopJ mt climit
                     (setOwn m f.name
                       (.mapV (setOwn (curMap m f.name) (mapKeyStr k) v)))) r3
                 | .ok _ => .error .outOfFuel
                 | .error e => .error e)
            | .repeatedR =>
              (match f.kind with
               | .msgK idx g =>
                 (match reg[idx]? with
                  | none => .error .outOfFuel
                  | some sub =>
                    if g then
                      match decodeGo reg fuel (.msgJ sub none) r1 with
                      | .ok (.msgR subm r2) =>
                        decodeGo reg fuel (.loopJ mt climit
                          (setOwn m f.name (.listV (curList m f.name ++ [.msgV subm])))) r2
                      | .ok _ => .error .outOfFuel
                      | .error e => .error e
                    else
                      match readUint32 r1 with
                      | .error e => .error e
                      | .ok (len, r2) =>
                        match decodeGo reg fuel (.msgJ sub (some len)) r2 with
                        | .ok (.msgR subm r3) =>
                          decodeGo reg fuel (.loopJ mt climit
                            (setOwn m f.name (.listV (curList m f.name ++ [.msgV subm])))) r3
                        | .ok _ => .error .outOfFuel
                        | .error e => .error e)
               | _ =>
                 match effScalar f.kind with
                 | none => .error .outOfFuel
                 | some st =>
                   match readScalar st r1 with
                   | .error e => .error e
                   | .ok (v, r2) =>
                     decodeGo reg fuel (.loopJ mt climit
                       (setOwn m f.name (.listV (curList m f.name ++ [.prim v])))) r2)
            | _ =>
              match f.kind with
              | .msgK idx g =>
                (match reg[idx]? with
                 | none => .error .outOfFuel
                 | some sub =>
                   if g then
                     match decodeGo reg fuel (.msgJ sub none) r1 with
                     | .ok (.msgR subm r2) =>
                       decodeGo reg fuel (.loopJ mt climit (setOwn m f.name (.msgV subm))) r2
                     | .ok _ => .error .outOfFuel
                     | .error e => .error e
                   else
                     match readUint32 r1 with
                     | .error e => .error e
                     | .ok (len, r2) =>
                       match decodeGo reg fuel (.msgJ sub (some len)) r2 with
                       | .ok (.msgR subm r3) =>
                         decodeGo reg fuel (.loopJ mt climit (setOwn m f.name (.msgV subm))) r3
                       | .ok _ => .error .outOfFuel
                       | .error e => .error e)
              | _ =>
                match effScalar f.kind with
                | none => .error .outOfFuel
                | some st =>
                  match readScalar st r1 with
                  | .error e => .error e
                  | .ok (v, r2) =>
                    decodeGo reg fuel (.loopJ mt climit (setOwn m f.name (.prim v))) r2
    else .ok (.msgR m r)
  | fuel+1, .entJ keyT vk c2 k v, r =>
    if r.pos < c2 then
      match readUint32 r with
      | .error e => .error e
      | .ok (t2, r1) =>
        if t2 = mapKeyCaseTag keyT then
          match readScalar keyT r1 with
          | .error e => .error e
          | .ok (k', r2) => decodeGo reg fuel (.entJ keyT vk c2 k' v) r2
        else if t2 = mapValueCaseTag vk then
          match vk with
          | .msgK idx _ =>
            (match reg[idx]? with
             | none => .error .outOfFuel
             | some sub =>
               match readUint32 r1 with
               | .error e => .error e
               | .ok (len, r2) =>
                 match decodeGo reg fuel (.msgJ sub (some len)) r2 with
                 | .ok (.msgR subm r3) =>
                   decodeGo reg fuel (.entJ keyT vk c2 k (.msgV subm)) r3
                 | .ok _ => .error .outOfFuel
                 | .error e => .error e)
          | _ =>
            match effScalar vk with
            | none => .error .outOfFuel
            | some st =>
              match readScalar st r1 with
              | .error e => .error e
              | .ok (v', r2) => decodeGo reg fuel (.entJ keyT vk c2 k (.prim v')) r2
        else
          match skipTypeF (r1.buf.length + 1) (t2 % 8) r1 with
          | .error e => .error e
          | .ok r2 => decodeGo reg fuel (.entJ keyT vk c2 k v) r2
    else .ok (.entR k v r)

/-- Decode one message from a byte buffer (no explicit limit: the
decoder reads to `r.len`), with sufficient fuel. -/
def decodeTop (reg : List MType) (mt : MType) (bytes : List Nat) :
    Except DecErr Message :=
  match decodeGo reg (2 * bytes.length + 2) (.msgJ mt none) ⟨bytes, 0⟩ with
  | .ok (.msgR m _) => .ok m
  | .ok _ => .error .outOfFuel
  | .error e => .error e

/-- A varint encoding (little-endian base-128), used to build wire
inputs in the statements below. -/
def encodeVarintAux : Nat → Nat → List Nat
  | 0, _ => []
  | count+1, n => if n < 128 then [n] else (128 + n % 128) :: encodeVarintAux count (n / 128)

/-- Varint-encode a value below `128 ^ 10`. -/
def encodeVarint (n : Nat) : List Nat :=
  encodeVarintAux 10 n

/-- The default value a field reads through the prototype when it has
no own property: `[]` for repeated fields, `{}` for maps, the scalar
default otherwise (`null` for messages). -/
def protoDefault (f : FieldDesc) : MVal :=
  match f.rule with
  | .repeatedR => .listV []
  | .mapR _ => .mapV []
  | _ =>
    match effScalar f.kind with
    | some t => .prim (defaultP t)
    | none => .nullV

/-- The observable value of a field on a decoded message: its own
property if present, the prototype default otherwise. -/
def fieldValue (f : FieldDesc) (m : Message) : MVal :=
  (getOwn m f.name).getD (protoDefault f)

/-! ## Deferred extension resolution (`src/root.js`)

The schema tree operations used by `tryHandleExtension` and
`_handleAdd` — `lookup`, `get`, `add` and the `Field` constructor — live
in `namespace.js`/`type.js`/`field.js`, which are not under `src/`;
they are modelled from the spec (§4.3: scope lookup is inner-to-outer
ending at Root; §4.5: the sister field copies id, type, rule and
options and is named by the extender's fully-qualified name). -/

/-- A field record inside an extended type (the sister field).  `name`
is the declaring extension field's fully-qualified name, as passed to
the `Field` constructor in `tryHandleExtension`. -/
structure SisterField where
  name : String
  id : Nat
  ftype : String
  rule : String
  options : List (String × String)
  declaringField : Option String
deriving DecidableEq, Repr

/-- A message type node of the schema tree, identified by its path of
name components from the root. -/
structure TypeRec where
  path : List String
  fields : List SisterField
deriving DecidableEq, Repr

/-- A declaring extension field: its fully-qualified name, the path of
its declaring parent (for scope lookup), the attributes copied to the
sister, its `extend` target, and the cross-link set once handled. -/
structure ExtField where
  fullName : String
  parentPath : List String
  id : Nat
  ftype : String
  rule : String
  options : List (String × String)
  extend : String
  extensionField : Option (List String)
deriving DecidableEq, Repr

/-- The root's view for extension handling: the set of types in the
tree and the deferred extension fields. -/
structure RootSchema where
  types : List TypeRec
  deferred : List ExtField
deriving DecidableEq, Repr

/-- Find a type by exact path. -/
def findType (ts : List TypeRec) (path : List String) : Option TypeRec :=
  ts.find? fun t => t.path = path

/-- Modelled from the spec: `lookup` over the lexical scope chain —
try the name under ever shorter prefixes of the scope, ending at the
root (the fully-qualified reading). -/
def lookupTypeGo (ts : List TypeRec) (scope nameParts : List String) :
    Nat → Option TypeRec
  | 0 => findType ts nameParts
  | k+1 =>
    match findType ts (scope.take (k+1) ++ nameParts) with
    | some t => some t
    | none => lookupTypeGo ts scope nameParts k

/-- Split a possibly dotted name into its components. -/
def splitOnDotAux : List Char → List Char → List String
  | [], acc => [String.mk acc.reverse]
  | c :: cs, acc =>
    if c = '.' then String.mk acc.reverse :: splitOnDotAux cs []
    else splitOnDotAux cs (c :: acc)

/-- Split a possibly dotted name into its components. -/
def splitOnDot (s : String) : List String :=
  splitOnDotAux s.data []

/-- Modelled from the spec: `parent.lookup(name)` with a possibly
dotted name. -/
def lookupType (ts : List TypeRec) (scope : List String) (name : String) :
    Option TypeRec :=
  lookupTypeGo ts scope (splitOnDot name) scope.length

/-- Append a field to the type at the given path. -/
def addFieldToType (ts : List TypeRec) (path : List String)
    (fld : SisterField) : List TypeRec :=
  ts.map fun t => if t.path = path then { t with fields := t.fields ++ [fld] } else t

/-- The sister field constructed in `tryHandleExtension`:
`new Field(field.fullName, field.id, field.type, field.rule, undefined,
field.options)`, cross-linked to its declaring field. -/
def sisterOf (f : ExtField) : SisterField :=
  { name := f.fullName, id := f.id, ftype := f.ftype, rule := f.rule,
    options := f.options, declaringField := some f.fullName }

/-- `tryHandleExtension` from `src/root.js`: look the `extend` target
up in the declaring parent's scope; on miss return `none` (`false`).
On hit, construct the sister field (the extending field's id, type,
rule and options, named by its fully-qualified name); if the extended
type already has a field of that name do nothing further (`true`);
otherwise cross-link (`sister.declaringField`/`field.extensionField`)
and add the sister to the extended type. -/
def tryHandleExtension (root : RootSchema) (f : ExtField) :
    Option (RootSchema × ExtField) :=
  match lookupType root.types f.parentPath f.extend with
  | none => none
  | some t =>
    if (t.fields.find? fun g => g.name = (sisterOf f).name).isSome then
      some (root, f)
    else
      some ({ root with types := addFieldToType root.types t.path (sisterOf f) },
            { f with extensionField := some t.path })

/-- The `Field` branch of `Root.prototype._handleAdd` for an extension
field not yet handled: try to attach it; on failure push it onto
`deferred`. -/
def handleAddField (root : RootSchema) (f : ExtField) : RootSchema × ExtField :=
  match tryHandleExtension root f with
  | some (r, f') => (r, f')
  | none => ({ root with deferred := root.deferred ++ [f] }, f)

/-- One retry of a deferred entry during the deferred-retry loop. -/
def retryStep (acc : RootSchema × List ExtField × List ExtField)
    (f : ExtField) : RootSchema × List ExtField × List ExtField :=
  match tryHandleExtension acc.1 f with
  | some (r', f') => (r', acc.2.1, acc.2.2 ++ [f'])
  | none => (acc.1, acc.2.1 ++ [f], acc.2.2)

/-- The deferred-retry loop of `_handleAdd` (run each time a `Type` is
added): retry every deferred entry in order; successes are removed
(the `splice`), failures are kept.  Returns the new root together with
the failed and succeeded entries. -/
def retryDeferred (root : RootSchema) :
    RootSchema × List ExtField × List ExtField :=
  let out := root.deferred.foldl retryStep ({ root with deferred := [] }, [], [])
  ({ out.1 with deferred := out.2.1 }, out.2.1, out.2.2)

/-- The `Type` branch of `_handleAdd`: the type has been added to the
tree; retry the deferred list. -/
def handleAddType (root : RootSchema) (t : TypeRec) : RootSchema :=
  (retryDeferred { root with types := root.types ++ [t] }).1

/-! ## Concrete instances used by the statements below -/

/-- The schema of scenario S4:
`message M { required int32 a = 1; required int32 b = 2; }`. -/
def mS4 : MType :=
  ⟨"M", false,
   [⟨"a", 1, .prim .int32, .requiredR, false⟩,
    ⟨"b", 2, .prim .int32, .requiredR, false⟩]⟩

/-- A repeated primitive field. -/
def repPrimField (name : String) (fid : Nat) (t : ScalarType)
    (packedOpt : Bool) : FieldDesc :=
  ⟨name, fid, .prim t, .repeatedR, packedOpt⟩

/-- A message type with a single repeated primitive field. -/
def repPrimMType (name : String) (fid : Nat) (t : ScalarType)
    (packedOpt : Bool) : MType :=
  ⟨"M", false, [repPrimField name fid t packedOpt]⟩

/-- The unpacked encoding of a value sequence for field `fid` at wire
type `wt`: each value chunk preceded by the field's tag. -/
def unpackedBytes (fid wt : Nat) (chunks : List (List Nat)) : List Nat :=
  (chunks.map fun c => encodeVarint (tag fid wt) ++ c).flatten

/-- The packed encoding of the same value sequence: one
length-delimited payload holding the concatenated chunks. -/
def packedBytes (fid : Nat) (chunks : List (List Nat)) : List Nat :=
  encodeVarint (tag fid LEN_TYPE) ++ encodeVarint chunks.flatten.length ++ chunks.flatten

/-- A byte chunk is a well-formed encoding of one value of scalar type
`t`: reading one scalar from the chunk alone yields that value and
consumes the whole chunk. -/
def chunkOK (t : ScalarType) (c : List Nat) (v : PVal) : Prop :=
  readScalar t ⟨c, 0⟩ = .ok (v, ⟨c, c.length⟩)

/-- An environment with one root file `a` whose parse yields a single
weak import `w`; `w` fetches fine but its source fails to parse. -/
def envWeakParse : Env :=
  { common := []
    resolvePath := fun _ t => some t
    fetchRes := fun fn =>
      if fn = "a" then .ok "A" else if fn = "w" then .ok "W" else .error "no such file"
    fsRead := fun _ => .error "ENOENT"
    parseRes := fun fn s =>
      if fn = "a" ∧ s = "A" then .ok ([], ["w"])
      else .error "parse failure in weak import"
    jsonRes := fun _ => .error "bad json" }

/-- The quiescent state of loading `["a"]` under `envWeakParse` with
the two fetch completions delivered in order. -/
def weakParseRun : LoadState :=
  doParseWork envWeakParse (fillSlot 0 (.work "w" (.text "W"))
    (doParseWork envWeakParse (fillSlot 0 (.work "a" (.text "A"))
      (loadInit envWeakParse ["a"]))))

/-- An environment with a single file `a.proto` that reads and parses
fine with no imports (used against the synchronous duplicate-file
path). -/
def envDup : Env :=
  { common := []
    resolvePath := fun _ t => some t
    fetchRes := fun _ => .error "no fetch"
    fsRead := fun fn => if fn = "a.proto" then .ok "message A{}" else .error "ENOENT"
    parseRes := fun fn s =>
      if fn = "a.proto" ∧ s = "message A{}" then .ok ([], [])
      else .error "parse error"
    jsonRes := fun _ => .error "bad json" }

/-! ## Loader invariants (statements) -/

/-- The callback log is in lockstep with the called flag: empty before
the callback fires, and exactly one well-shaped entry — either
`(null, root)` or `(error, null)` — afterwards. -/
def WfLog (s : LoadState) : Prop :=
  (s.callbackCalled = false → s.callbackLog = []) ∧
  (s.callbackCalled = true → ∃ ent, s.callbackLog = [ent] ∧
    (ent = (none, true) ∨ ∃ e, ent = (some e, false)))

/-- An error visible to the user has a provenance: a fetch failure of a
non-weakly dispatched file, or a `processSingleFile` failure. -/
def ErrProvenance (env : Env) (s : LoadState) (e : String) : Prop :=
  (∃ fn, (fn, false) ∈ s.dispatchLog ∧ env.fetchRes fn = .error e) ∨
  (∃ p ∈ s.processLog, processSingleFile env p.1 p.2 = .error e)

/-- Every error object sitting in a stack slot stems from the fetch
failure of a non-weak dispatch. -/
def SlotErrOK (env : Env) (s : LoadState) : Prop :=
  ∀ e, (Slot.inflight (.fail e) ∈ s.stack ∨ Slot.filled (.fail e) ∈ s.stack) →
    ∃ fn, (fn, false) ∈ s.dispatchLog ∧ env.fetchRes fn = .error e

/-- Every error delivered to the user callback has a provenance. -/
def LogErrOK (env : Env) (s : LoadState) : Prop :=
  ∀ e b, (some e, b) ∈ s.callbackLog → ErrProvenance env s e

/-- The fetch collaborator is invoked at most once per filename, and
every fetched filename was recorded in `files` (at dispatch, before the
fetch). -/
def FetchInv (s : LoadState) : Prop :=
  s.fetchLog.Nodup ∧ ∀ fn ∈ s.fetchLog, fn ∈ s.files

/-- The combined loader invariant: between scheduling steps either the
callback has fired or an in-flight slot tops the stack, and the log
invariants hold. -/
def LoadInv (env : Env) (s : LoadState) : Prop :=
  (s.callbackCalled = true ∨ ∃ c rest, s.stack = Slot.inflight c :: rest) ∧
  WfLog s ∧ SlotErrOK env s ∧ LogErrOK env s ∧ FetchInv s

/-- An environment whose `resolvePath` returns `null` for the file
`x` and resolves everything else to itself. -/
def envNull : Env :=
  { common := []
    resolvePath := fun _ t => if t = "x" then none else some t
    fetchRes := fun fn => if fn = "a" then .ok "A" else .error "no such file"
    fsRead := fun fn => if fn = "a" then .ok "A" else .error "ENOENT"
    parseRes := fun _ _ => .ok ([], [])
    jsonRes := fun _ => .error "bad json" }

/-- A root with one type `M` (already carrying a field named `p.dup`)
and one deferred extension field whose `extend` target `Zed` never
appears. -/
def c7root : RootSchema :=
  ⟨[⟨["M"], [⟨"p.dup", 7, "int32", "optional", [], none⟩]⟩],
   [⟨"q", ["Q"], 9, "int32", "optional", [], "Zed", none⟩]⟩

/-- An extension field extending `M` under a fresh name. -/
def c7f : ExtField := ⟨"p.x", [], 100, "int32", "optional", [], "M", none⟩

/-- An extension field extending `M` whose fully-qualified name
collides with an existing field of `M`. -/
def c7fdup : ExtField := ⟨"p.dup", [], 8, "int32", "optional", [], "M", none⟩

/-- An extension field whose target is nowhere in scope. -/
def c7fd : ExtField := ⟨"p.y", [], 11, "int32", "optional", [], "Nope", none⟩

/-- A freshly added type that does not satisfy the deferred entry. -/
def c7tAdd : TypeRec := ⟨["N"], []⟩

/-- The type `M` of `c7root`, as found by lookup. -/
def c7t : TypeRec := ⟨["M"], [⟨"p.dup", 7, "int32", "optional", [], none⟩]⟩

/-- The root after adding `c7tAdd` and retrying the deferred list. -/
def c7root' : RootSchema :=
  ⟨[⟨["M"], [⟨"p.dup", 7, "int32", "optional", [], none⟩]⟩, ⟨["N"], []⟩],
   [⟨"q", ["Q"], 9, "int32", "optional", [], "Zed", none⟩]⟩

/-- The deferred entry that fails again on retry. -/
def c7q : ExtField := ⟨"q", ["Q"], 9, "int32", "optional", [], "Zed", none⟩

/-! # Theorems -/

/-! ## Tag arithmetic (C2) -/

theorem lor_bits8 (a : Nat) (b0 b1 b2 : Bool) :
    8 * a ||| Nat.bit b0 (Nat.bit b1 (Nat.bit b2 0)) =
      8 * a + Nat.bit b0 (Nat.bit b1 (Nat.bit b2 0)) := by
  rw [show 8 * a = Nat.bit false (Nat.bit false (Nat.bit false a)) from by
        simp [Nat.bit]; ring,
      Nat.lor_bit, Nat.lor_bit, Nat.lor_bit]
  cases b0 <;> cases b1 <;> cases b2 <;> simp [Nat.bit, Nat.or_zero] <;> ring

theorem lor_mul8_add (a w : Nat) (hw : w < 8) : 8 * a ||| w = 8 * a + w := by
  have hbits : w = Nat.bit (decide (w % 2 = 1))
      (Nat.bit (decide (w / 2 % 2 = 1)) (Nat.bit (decide (w / 4 % 2 = 1)) 0)) := by
    interval_cases w <;> rfl
  rw [hbits]
  exact lor_bits8 a _ _ _

/-- C2: for every field id in `[1, 2^29-1]` and wire type in
`{0,1,2,5}`, the decoder builder's `tag` function computes exactly
`field_id * 8 + wire_type`, which coincides with the canonical
Protocol Buffers wire encoding `(field_id <<< 3) ||| wire_type`, and
the result stays below `2^32 - 2` (hence exact, never wrapping into the
sign bit of a 32-bit signed space, and far below the `2^53` exactness
bound of JavaScript numbers). -/
theorem tag_wire_encoding (fid wt : Nat) (h1 : 1 ≤ fid)
    (h2 : fid ≤ 2 ^ 29 - 1) (h3 : wt = 0 ∨ wt = 1 ∨ wt = 2 ∨ wt = 5) :
    tag fid wt = fid * 8 + wt ∧
    tag fid wt = (fid <<< 3) ||| wt ∧
    tag fid wt ≤ 2 ^ 32 - 3 ∧ tag fid wt < 2 ^ 53 := by
  have hwt : wt < 8 := by rcases h3 with h | h | h | h <;> omega
  have hlor : 8 * fid ||| wt = 8 * fid + wt := lor_mul8_add fid wt hwt
  have e1 : (2 : Nat) ^ 29 - 1 = 536870911 := by norm_num
  have e2 : (2 : Nat) ^ 32 - 3 = 4294967293 := by norm_num
  have e3 : (2 : Nat) ^ 53 = 9007199254740992 := by norm_num
  refine ⟨rfl, ?_, ?_, ?_⟩
  · show fid * 8 + wt = fid <<< 3 ||| wt
    rw [Nat.shiftLeft_eq, show fid * 2 ^ 3 = 8 * fid from by ring, hlor]
    ring
  · show fid * 8 + wt ≤ 2 ^ 32 - 3
    rw [e2]; rw [e1] at h2; omega
  · show fid * 8 + wt < 2 ^ 53
    rw [e3]; rw [e1] at h2; omega

theorem tag_wire_encoding_witness :
    tag 536870911 5 = 536870911 * 8 + 5 ∧
    tag 536870911 5 = (536870911 <<< 3) ||| 5 ∧
    tag 536870911 5 ≤ 2 ^ 32 - 3 ∧ tag 536870911 5 < 2 ^ 53 :=
  tag_wire_encoding 536870911 5 (by norm_num) (by norm_num)
    (by right; right; right; rfl)

/-! ## Map-entry wire types (C4) -/

/-- C4: for every map field `Map<K,V>`, the generated map-entry
sub-dispatch places the key case at `tag(1, basic[K])` and the value
case at wire type 2 when `V` is a message type, at `basic[V]` when `V`
is a primitive, and at `basic[int32]` when `V` is an enum — the value
case tag being a function of the value type alone (the key type does
not enter `mapValueCaseTag`), while the outer dispatch accepts the
entry itself at `tag(id, 2)`. -/
theorem map_entry_wire_types (f : FieldDesc) (keyT : ScalarType)
    (hm : f.rule = .mapR keyT) :
    fieldMatches f (tag f.id LEN_TYPE) = some .primaryC ∧
    mapKeyCaseTag keyT = tag 1 (wireBasic keyT) ∧
    (∀ idx g, f.kind = .msgK idx g → mapValueCaseTag f.kind = tag 2 LEN_TYPE) ∧
    (∀ t, f.kind = .prim t → mapValueCaseTag f.kind = tag 2 (wireBasic t)) ∧
    (f.kind = .enumK → mapValueCaseTag f.kind = tag 2 (wireBasic .int32)) := by
  refine ⟨?_, rfl, ?_, ?_, ?_⟩
  · simp [fieldMatches, primaryTag, hm]
  · intro idx g hk; simp [mapValueCaseTag, effScalar, hk]
  · intro t hk; simp [mapValueCaseTag, effScalar, hk]
  · intro hk; simp [mapValueCaseTag, effScalar, hk]

theorem map_entry_wire_types_witness :
    fieldMatches ⟨"m", 1, .prim .int32, .mapR .stringT, false⟩
        (tag 1 LEN_TYPE) = some .primaryC ∧
    mapKeyCaseTag .stringT = tag 1 (wireBasic .stringT) ∧
    (∀ idx g, FieldKind.prim .int32 = .msgK idx g →
      mapValueCaseTag (.prim .int32) = tag 2 LEN_TYPE) ∧
    (∀ t, FieldKind.prim .int32 = .prim t →
      mapValueCaseTag (.prim .int32) = tag 2 (wireBasic t)) ∧
    (FieldKind.prim .int32 = .enumK →
      mapValueCaseTag (.prim .int32) = tag 2 (wireBasic .int32)) :=
  map_entry_wire_types ⟨"m", 1, .prim .int32, .mapR .stringT, false⟩ .stringT rfl

/-! ## Required-field presence (C5) -/

theorem checkRequired_first_absent (flds1 : List FieldDesc) (f : FieldDesc)
    (flds2 : List FieldDesc) (m : Message)
    (hreq : f.rule = .requiredR) (habs : getOwn m f.name = none)
    (hprev : ∀ g ∈ flds1, g.rule = .requiredR → (getOwn m g.name).isSome = true) :
    checkRequired (flds1 ++ f :: flds2) m =
      .error (.protocolError (missingMsg f.name) m) := by
  induction flds1 with
  | nil => simp [checkRequired, hreq, habs]
  | cons g rest ih =>
    have hg := hprev g (List.mem_cons_self g rest)
    have hrest : ∀ g' ∈ rest, g'.rule = .requiredR → (getOwn m g'.name).isSome = true :=
      fun g' hg' => hprev g' (List.mem_cons_of_mem _ hg')
    cases hrule : g.rule with
    | requiredR =>
      obtain ⟨v, hv⟩ := Option.isSome_iff_exists.mp (hg hrule)
      simpa [checkRequired, hrule, hv] using ih hrest
    | optionalR => simpa [checkRequired, hrule] using ih hrest
    | repeatedR => simpa [checkRequired, hrule] using ih hrest
    | mapR k => simpa [checkRequired, hrule] using ih hrest

/-- C5: after the decode loop, required fields are checked in
declaration order and the first absent one fails with
`ProtocolError("missing required '<name>'", {instance: partial})`;
concretely (scenario S4), bytes `08 05` against
`message M { required int32 a = 1; required int32 b = 2; }` fail with
`missing required 'b'` carrying the partial instance `{a: 5}`. -/
theorem missing_required_field (flds1 : List FieldDesc) (f : FieldDesc)
    (flds2 : List FieldDesc) (m : Message)
    (hreq : f.rule = .requiredR) (habs : getOwn m f.name = none)
    (hprev : ∀ g ∈ flds1, g.rule = .requiredR → (getOwn m g.name).isSome = true) :
    checkRequired (flds1 ++ f :: flds2) m =
      .error (.protocolError (missingMsg f.name) m) ∧
    decodeTop [] mS4 [8, 5] =
      .error (.protocolError "missing required 'b'" [("a", .prim (.vInt 5))]) :=
  ⟨checkRequired_first_absent flds1 f flds2 m hreq habs hprev, rfl⟩

theorem missing_required_field_witness :
    checkRequired ([⟨"a", 1, .prim .int32, .requiredR, false⟩] ++
        ⟨"b", 2, .prim .int32, .requiredR, false⟩ :: []) [("a", .prim (.vInt 5))] =
      .error (.protocolError (missingMsg "b") [("a", .prim (.vInt 5))]) ∧
    decodeTop [] mS4 [8, 5] =
      .error (.protocolError "missing required 'b'" [("a", .prim (.vInt 5))]) :=
  missing_required_field [⟨"a", 1, .prim .int32, .requiredR, false⟩]
    ⟨"b", 2, .prim .int32, .requiredR, false⟩ [] [("a", .prim (.vInt 5))]
    rfl rfl (by decide)

/-! ## Loader invariant preservation -/

theorem finish_callbackCalled (e : Option String) (s : LoadState) :
    (finish e s).callbackCalled = true := by
  unfold finish; split
  · assumption
  · rfl

theorem finish_stack (e : Option String) (s : LoadState) :
    (finish e s).stack = s.stack := by
  unfold finish; split <;> rfl

theorem finish_dispatchLog (e : Option String) (s : LoadState) :
    (finish e s).dispatchLog = s.dispatchLog := by
  unfold finish; split <;> rfl

theorem finish_processLog (e : Option String) (s : LoadState) :
    (finish e s).processLog = s.processLog := by
  unfold finish; split <;> rfl

theorem finish_files (e : Option String) (s : LoadState) :
    (finish e s).files = s.files := by
  unfold finish; split <;> rfl

theorem finish_fetchLog (e : Option String) (s : LoadState) :
    (finish e s).fetchLog = s.fetchLog := by
  unfold finish; split <;> rfl

theorem countFilled_inflight_cons (c : FillResult) (rest : List Slot) :
    countFilled (.inflight c :: rest) = countFilled rest := by
  simp [countFilled, List.filter_cons]

theorem countFilled_filled_cons (c : FillResult) (rest : List Slot) :
    countFilled (.filled c :: rest) = countFilled rest + 1 := by
  simp [countFilled, List.filter_cons]

theorem fetchOneFile_stack (env : Env) (fn : String) (w : Bool) (s : LoadState) :
    ∃ c, (fetchOneFile env fn w s).stack = .inflight c :: s.stack := by
  unfold fetchOneFile; split
  · exact ⟨_, rfl⟩
  · split
    · exact ⟨_, rfl⟩
    · exact ⟨_, rfl⟩

theorem fetchOneFile_countFilled (env : Env) (fn : String) (w : Bool) (s : LoadState) :
    countFilled (fetchOneFile env fn w s).stack = countFilled s.stack := by
  obtain ⟨c, hc⟩ := fetchOneFile_stack env fn w s
  rw [hc, countFilled_inflight_cons]

theorem fetchOneFile_logs (env : Env) (fn : String) (w : Bool) (s : LoadState) :
    (fetchOneFile env fn w s).callbackCalled = s.callbackCalled ∧
    (fetchOneFile env fn w s).callbackLog = s.callbackLog ∧
    (fetchOneFile env fn w s).processLog = s.processLog := by
  unfold fetchOneFile; split
  · exact ⟨rfl, rfl, rfl⟩
  · split
    · exact ⟨rfl, rfl, rfl⟩
    · exact ⟨rfl, rfl, rfl⟩

theorem fetchOneFile_dispatchLog (env : Env) (fn : String) (w : Bool) (s : LoadState) :
    (fetchOneFile env fn w s).dispatchLog = s.dispatchLog ++ [(fn, w)] := by
  unfold fetchOneFile; split
  · rfl
  · split
    · rfl
    · rfl

theorem dispatchList_countFilled (env : Env) (items : List (String × Bool)) (s : LoadState) :
    countFilled (dispatchList env items s).stack = countFilled s.stack := by
  induction items generalizing s with
  | nil => rfl
  | cons p rest ih =>
    show countFilled (dispatchList env rest (fetchOneFile env p.1 p.2 s)).stack = _
    rw [ih, fetchOneFile_countFilled]

theorem dispatchList_logs (env : Env) (items : List (String × Bool)) (s : LoadState) :
    (dispatchList env items s).callbackCalled = s.callbackCalled ∧
    (dispatchList env items s).callbackLog = s.callbackLog ∧
    (dispatchList env items s).processLog = s.processLog := by
  induction items generalizing s with
  | nil => exact ⟨rfl, rfl, rfl⟩
  | cons p rest ih =>
    have h := fetchOneFile_logs env p.1 p.2 s
    have h' := ih (fetchOneFile env p.1 p.2 s)
    exact ⟨h'.1.trans h.1, h'.2.1.trans h.2.1, h'.2.2.trans h.2.2⟩

theorem dispatchList_dispatchLog (env : Env) (items : List (String × Bool)) (s : LoadState) :
    ∃ tail, (dispatchList env items s).dispatchLog = s.dispatchLog ++ tail := by
  induction items generalizing s with
  | nil => exact ⟨[], (List.append_nil _).symm⟩
  | cons p rest ih =>
    obtain ⟨tail, htail⟩ := ih (fetchOneFile env p.1 p.2 s)
    refine ⟨(p.1, p.2) :: tail, ?_⟩
    show (dispatchList env rest (fetchOneFile env p.1 p.2 s)).dispatchLog = _
    rw [htail, fetchOneFile_dispatchLog]
    simp

theorem goParse_of_cb (env : Env) (fuel : Nat) (s : LoadState)
    (hcb : s.callbackCalled = true) : goParse env fuel s = s := by
  cases fuel with
  | zero => rfl
  | succ n => simp [goParse, hcb]

theorem goParse_nil (env : Env) (n : Nat) (s : LoadState)
    (hcb : s.callbackCalled = false) (hs : s.stack = []) :
    goParse env (n+1) s = finish none s := by
  obtain ⟨fl, st, cb, cl, pl, dl, fg⟩ := s
  simp only at hcb hs
  subst hcb; subst hs; rfl

theorem goParse_inflight (env : Env) (n : Nat) (s : LoadState) (c : FillResult)
    (rest : List Slot) (hcb : s.callbackCalled = false)
    (hs : s.stack = .inflight c :: rest) :
    goParse env (n+1) s = s := by
  obtain ⟨fl, st, cb, cl, pl, dl, fg⟩ := s
  simp only at hcb hs
  subst hcb; subst hs; rfl

theorem goParse_noop (env : Env) (n : Nat) (s : LoadState) (rest : List Slot)
    (hcb : s.callbackCalled = false) (hs : s.stack = .filled .noop :: rest) :
    goParse env (n+1) s = goParse env n { s with stack := rest } := by
  obtain ⟨fl, st, cb, cl, pl, dl, fg⟩ := s
  simp only at hcb hs
  subst hcb; subst hs; rfl

theorem goParse_fail (env : Env) (n : Nat) (s : LoadState) (e : String)
    (rest : List Slot) (hcb : s.callbackCalled = false)
    (hs : s.stack = .filled (.fail e) :: rest) :
    goParse env (n+1) s = finish (some e) { s with stack := rest } := by
  obtain ⟨fl, st, cb, cl, pl, dl, fg⟩ := s
  simp only at hcb hs
  subst hcb; subst hs; rfl

theorem goParse_work_err (env : Env) (n : Nat) (s : LoadState) (fn : String)
    (src : Source) (e : String) (rest : List Slot)
    (hcb : s.callbackCalled = false)
    (hs : s.stack = .filled (.work fn src) :: rest)
    (hps : processSingleFile env fn (some src) = .error e) :
    goParse env (n+1) s =
      finish (some e)
        { s with stack := rest, processLog := s.processLog ++ [(fn, some src)] } := by
  obtain ⟨fl, st, cb, cl, pl, dl, fg⟩ := s
  simp only at hcb hs
  subst hcb; subst hs
  simp only [goParse, hps]
  rfl

theorem goParse_work_ok (env : Env) (n : Nat) (s : LoadState) (fn : String)
    (src : Source) (imps : List (String × Bool)) (rest : List Slot)
    (hcb : s.callbackCalled = false)
    (hs : s.stack = .filled (.work fn src) :: rest)
    (hps : processSingleFile env fn (some src) = .ok imps) :
    goParse env (n+1) s =
      goParse env n (dispatchList env imps.reverse
        { s with stack := rest, processLog := s.processLog ++ [(fn, some src)] }) := by
  obtain ⟨fl, st, cb, cl, pl, dl, fg⟩ := s
  simp only at hcb hs
  subst hcb; subst hs
  simp only [goParse, hps]
  rfl

theorem goParse_cb_or_inflight (env : Env) :
    ∀ fuel s, countFilled s.stack < fuel →
      (goParse env fuel s).callbackCalled = true ∨
      ∃ c rest, (goParse env fuel s).stack = Slot.inflight c :: rest := by
  intro fuel
  induction fuel with
  | zero => intro s h; exact absurd h (Nat.not_lt_zero _)
  | succ n ih =>
    intro s h
    by_cases hcb : s.callbackCalled = true
    · left; rw [goParse_of_cb env _ s hcb]; exact hcb
    · have hcb' : s.callbackCalled = false := by simpa using hcb
      cases hs : s.stack with
      | nil =>
        left
        rw [goParse_nil env n s hcb' hs]
        exact finish_callbackCalled none s
      | cons top rest =>
        cases top with
        | inflight c =>
          right
          rw [goParse_inflight env n s c rest hcb' hs]
          exact ⟨c, rest, hs⟩
        | filled fc =>
          cases fc with
          | noop =>
            rw [hs, countFilled_filled_cons] at h
            rw [goParse_noop env n s rest hcb' hs]
            exact ih { s with stack := rest } (by show countFilled rest < n; omega)
          | fail e =>
            left
            rw [goParse_fail env n s e rest hcb' hs]
            exact finish_callbackCalled _ _
          | work fn src =>
            rw [hs, countFilled_filled_cons] at h
            cases hps : processSingleFile env fn (some src) with
            | error e =>
              left
              rw [goParse_work_err env n s fn src e rest hcb' hs hps]
              exact finish_callbackCalled _ _
            | ok imps =>
              have hcf : countFilled (dispatchList env imps.reverse
                  { s with stack := rest,
                           processLog := s.processLog ++ [(fn, some src)] }).stack < n := by
                rw [dispatchList_countFilled]
                show countFilled rest < n
                omega
              rw [goParse_work_ok env n s fn src imps rest hcb' hs hps]
              exact ih _ hcf

theorem wfLog_of_eq (s s' : LoadState) (h1 : s'.callbackCalled = s.callbackCalled)
    (h2 : s'.callbackLog = s.callbackLog) (h : WfLog s) : WfLog s' := by
  refine ⟨fun hf => ?_, fun ht => ?_⟩
  · rw [h2]; exact h.1 (by rw [← h1]; exact hf)
  · rw [h2]; exact h.2 (by rw [← h1]; exact ht)

theorem finish_wfLog (e : Option String) (s : LoadState) (h : WfLog s) :
    WfLog (finish e s) := by
  unfold finish; split
  · exact h
  · rename_i hcb
    have hcb' : s.callbackCalled = false := by
      cases hx : s.callbackCalled
      · rfl
      · exact absurd hx hcb
    have hlog := h.1 hcb'
    constructor
    · intro hf; exact absurd hf (by simp)
    · intro _
      refine ⟨(e, e.isNone), ?_, ?_⟩
      · show s.callbackLog ++ [(e, e.isNone)] = [(e, e.isNone)]
        rw [hlog]; rfl
      · cases e with
        | none => left; rfl
        | some e' => right; exact ⟨e', rfl⟩

theorem goParse_wfLog (env : Env) :
    ∀ fuel s, WfLog s → WfLog (goParse env fuel s) := by
  intro fuel
  induction fuel with
  | zero => intro s h; exact h
  | succ n ih =>
    intro s h
    by_cases hcb : s.callbackCalled = true
    · rw [goParse_of_cb env _ s hcb]; exact h
    · have hcb' : s.callbackCalled = false := by simpa using hcb
      cases hs : s.stack with
      | nil =>
        rw [goParse_nil env n s hcb' hs]
        exact finish_wfLog none s h
      | cons top rest =>
        cases top with
        | inflight c => rw [goParse_inflight env n s c rest hcb' hs]; exact h
        | filled fc =>
          cases fc with
          | noop =>
            rw [goParse_noop env n s rest hcb' hs]
            exact ih _ (wfLog_of_eq _ _ rfl rfl h)
          | fail e =>
            rw [goParse_fail env n s e rest hcb' hs]
            exact finish_wfLog _ _ (wfLog_of_eq _ _ rfl rfl h)
          | work fn src =>
            cases hps : processSingleFile env fn (some src) with
            | error e =>
              rw [goParse_work_err env n s fn src e rest hcb' hs hps]
              exact finish_wfLog _ _ (wfLog_of_eq _ _ rfl rfl h)
            | ok imps =>
              rw [goParse_work_ok env n s fn src imps rest hcb' hs hps]
              refine ih _ ?_
              have hd := dispatchList_logs env imps.reverse
                { s with stack := rest,
                         processLog := s.processLog ++ [(fn, some src)] }
              exact wfLog_of_eq _ _ hd.1 hd.2.1 h

theorem errProv_mono (env : Env) {s s' : LoadState} (e : String)
    (hd : ∀ x ∈ s.dispatchLog, x ∈ s'.dispatchLog)
    (hp : ∀ x ∈ s.processLog, x ∈ s'.processLog)
    (h : ErrProvenance env s e) : ErrProvenance env s' e := by
  rcases h with ⟨fn, hfn, herr⟩ | ⟨p, hp', herr⟩
  · exact Or.inl ⟨fn, hd _ hfn, herr⟩
  · exact Or.inr ⟨p, hp _ hp', herr⟩

theorem fetchOneFile_slotErr (env : Env) (fn : String) (w : Bool) (s : LoadState)
    (h : SlotErrOK env s) : SlotErrOK env (fetchOneFile env fn w s) := by
  unfold fetchOneFile
  split
  · intro e he
    have hold : Slot.inflight (.fail e) ∈ s.stack ∨ Slot.filled (.fail e) ∈ s.stack := by
      rcases he with he | he
      · rcases List.mem_cons.mp he with heq | hm
        · simp at heq
        · exact Or.inl hm
      · rcases List.mem_cons.mp he with heq | hm
        · simp at heq
        · exact Or.inr hm
    obtain ⟨g, hg, herr⟩ := h e hold
    exact ⟨g, List.mem_append_left _ hg, herr⟩
  · split
    · intro e he
      have hold : Slot.inflight (.fail e) ∈ s.stack ∨ Slot.filled (.fail e) ∈ s.stack := by
        rcases he with he | he
        · rcases List.mem_cons.mp he with heq | hm
          · simp at heq
          · exact Or.inl hm
        · rcases List.mem_cons.mp he with heq | hm
          · simp at heq
          · exact Or.inr hm
      obtain ⟨g, hg, herr⟩ := h e hold
      exact ⟨g, List.mem_append_left _ hg, herr⟩
    · cases hf : env.fetchRes fn with
      | error e' =>
        cases w with
        | true =>
          intro e he
          have hold : Slot.inflight (.fail e) ∈ s.stack ∨ Slot.filled (.fail e) ∈ s.stack := by
            rcases he with he | he
            · rcases List.mem_cons.mp he with heq | hm
              · simp at heq
              · exact Or.inl hm
            · rcases List.mem_cons.mp he with heq | hm
              · simp at heq
              · exact Or.inr hm
          obtain ⟨g, hg, herr⟩ := h e hold
          exact ⟨g, List.mem_append_left _ hg, herr⟩
        | false =>
          intro e he
          rcases he with he | he
          · rcases List.mem_cons.mp he with heq | hm
            · have he' : e = e' := by
                have := Slot.inflight.inj heq
                exact FillResult.fail.inj this
              subst he'
              exact ⟨fn, by simp, hf⟩
            · obtain ⟨g, hg, herr⟩ := h e (Or.inl hm)
              exact ⟨g, List.mem_append_left _ hg, herr⟩
          · rcases List.mem_cons.mp he with heq | hm
            · simp at heq
            · obtain ⟨g, hg, herr⟩ := h e (Or.inr hm)
              exact ⟨g, List.mem_append_left _ hg, herr⟩
      | ok txt =>
        intro e he
        have hold : Slot.inflight (.fail e) ∈ s.stack ∨ Slot.filled (.fail e) ∈ s.stack := by
          rcases he with he | he
          · rcases List.mem_cons.mp he with heq | hm
            · simp at heq
            · exact Or.inl hm
          · rcases List.mem_cons.mp he with heq | hm
            · simp at heq
            · exact Or.inr hm
        obtain ⟨g, hg, herr⟩ := h e hold
        exact ⟨g, List.mem_append_left _ hg, herr⟩

theorem fetchOneFile_logErr (env : Env) (fn : String) (w : Bool) (s : LoadState)
    (h : LogErrOK env s) : LogErrOK env (fetchOneFile env fn w s) := by
  intro e b hmem
  have hl := (fetchOneFile_logs env fn w s).2.1
  rw [hl] at hmem
  refine errProv_mono env e ?_ ?_ (h e b hmem)
  · intro x hx
    rw [fetchOneFile_dispatchLog]
    exact List.mem_append_left _ hx
  · intro x hx
    rw [(fetchOneFile_logs env fn w s).2.2]
    exact hx

theorem fetchOneFile_fetchInv (env : Env) (fn : String) (w : Bool) (s : LoadState)
    (h : FetchInv s) : FetchInv (fetchOneFile env fn w s) := by
  unfold fetchOneFile
  split
  · exact h
  · split
    · exact ⟨h.1, fun g hg => List.mem_append_left _ (h.2 g hg)⟩
    · have hnin : fn ∉ s.files := by assumption
      have hfn : fn ∉ s.fetchLog := fun hmem => hnin (h.2 fn hmem)
      constructor
      · refine List.nodup_append.mpr ⟨h.1, List.nodup_singleton fn, ?_⟩
        intro a ha hb
        rw [List.mem_singleton] at hb
        subst hb
        exact hfn ha
      · intro g hg
        rcases List.mem_append.mp hg with hg | hg
        · exact List.mem_append_left _ (h.2 g hg)
        · rw [List.mem_singleton] at hg
          subst hg
          exact List.mem_append_right _ (by simp)

theorem dispatchList_slotErr (env : Env) (items : List (String × Bool)) (s : LoadState)
    (h : SlotErrOK env s) : SlotErrOK env (dispatchList env items s) := by
  induction items generalizing s with
  | nil => exact h
  | cons p rest ih => exact ih _ (fetchOneFile_slotErr env p.1 p.2 s h)

theorem dispatchList_logErr (env : Env) (items : List (String × Bool)) (s : LoadState)
    (h : LogErrOK env s) : LogErrOK env (dispatchList env items s) := by
  induction items generalizing s with
  | nil => exact h
  | cons p rest ih => exact ih _ (fetchOneFile_logErr env p.1 p.2 s h)

theorem dispatchList_fetchInv (env : Env) (items : List (String × Bool)) (s : LoadState)
    (h : FetchInv s) : FetchInv (dispatchList env items s) := by
  induction items generalizing s with
  | nil => exact h
  | cons p rest ih => exact ih _ (fetchOneFile_fetchInv env p.1 p.2 s h)

theorem finish_slotErr (env : Env) (e : Option String) (s : LoadState)
    (h : SlotErrOK env s) : SlotErrOK env (finish e s) := by
  intro e' he'
  rw [finish_stack] at he'
  rw [finish_dispatchLog]
  exact h e' he'

theorem finish_fetchInv (e : Option String) (s : LoadState)
    (h : FetchInv s) : FetchInv (finish e s) := by
  unfold finish; split
  · exact h
  · exact h

theorem finish_logErr (env : Env) (e : Option String) (s : LoadState)
    (h : LogErrOK env s)
    (hnew : ∀ e', e = some e' → ErrProvenance env s e') :
    LogErrOK env (finish e s) := by
  unfold finish; split
  · exact h
  · intro e' b hmem
    rcases List.mem_append.mp hmem with hmem | hmem
    · exact h e' b hmem
    · rw [List.mem_singleton] at hmem
      have he : some e' = e := congrArg Prod.fst hmem
      exact hnew e' he.symm

theorem slotErr_of_fields (env : Env) {s s' : LoadState} (h : SlotErrOK env s)
    (hst : ∀ sl, sl ∈ s'.stack → sl ∈ s.stack)
    (hd : s'.dispatchLog = s.dispatchLog) : SlotErrOK env s' := by
  intro e he
  rw [hd]
  refine h e ?_
  rcases he with he | he
  · exact Or.inl (hst _ he)
  · exact Or.inr (hst _ he)

theorem logErr_of_fields (env : Env) {s s' : LoadState} (h : LogErrOK env s)
    (hcl : s'.callbackLog = s.callbackLog)
    (hd : ∀ x ∈ s.dispatchLog, x ∈ s'.dispatchLog)
    (hp : ∀ x ∈ s.processLog, x ∈ s'.processLog) : LogErrOK env s' := by
  intro e b hmem
  rw [hcl] at hmem
  exact errProv_mono env e hd hp (h e b hmem)

theorem fetchInv_of_fields {s s' : LoadState} (h : FetchInv s)
    (hf : s'.fetchLog = s.fetchLog) (hfl : ∀ x ∈ s.files, x ∈ s'.files) :
    FetchInv s' := by
  refine ⟨hf ▸ h.1, fun g hg => hfl _ (h.2 g ?_)⟩
  rw [← hf]
  exact hg

theorem goParse_slotErr (env : Env) :
    ∀ fuel s, SlotErrOK env s → SlotErrOK env (goParse env fuel s) := by
  intro fuel
  induction fuel with
  | zero => intro s h; exact h
  | succ n ih =>
    intro s h
    by_cases hcb : s.callbackCalled = true
    · rw [goParse_of_cb env _ s hcb]; exact h
    · have hcb' : s.callbackCalled = false := by simpa using hcb
      cases hs : s.stack with
      | nil =>
        rw [goParse_nil env n s hcb' hs]
        exact finish_slotErr env none s h
      | cons top rest =>
        have htail : ∀ sl, sl ∈ rest → sl ∈ s.stack := by
          intro sl hsl; rw [hs]; exact List.mem_cons_of_mem _ hsl
        cases top with
        | inflight c => rw [goParse_inflight env n s c rest hcb' hs]; exact h
        | filled fc =>
          cases fc with
          | noop =>
            rw [goParse_noop env n s rest hcb' hs]
            exact ih _ (slotErr_of_fields env h htail rfl)
          | fail e =>
            rw [goParse_fail env n s e rest hcb' hs]
            exact finish_slotErr env _ _ (slotErr_of_fields env h htail rfl)
          | work fn src =>
            cases hps : processSingleFile env fn (some src) with
            | error e =>
              rw [goParse_work_err env n s fn src e rest hcb' hs hps]
              exact finish_slotErr env _ _ (slotErr_of_fields env h htail rfl)
            | ok imps =>
              rw [goParse_work_ok env n s fn src imps rest hcb' hs hps]
              exact ih _ (dispatchList_slotErr env _ _
                (slotErr_of_fields env h htail rfl))

theorem goParse_logErr (env : Env) :
    ∀ fuel s, SlotErrOK env s → LogErrOK env s → LogErrOK env (goParse env fuel s) := by
  intro fuel
  induction fuel with
  | zero => intro s _ h; exact h
  | succ n ih =>
    intro s hslot h
    by_cases hcb : s.callbackCalled = true
    · rw [goParse_of_cb env _ s hcb]; exact h
    · have hcb' : s.callbackCalled = false := by simpa using hcb
      cases hs : s.stack with
      | nil =>
        rw [goParse_nil env n s hcb' hs]
        exact finish_logErr env none s h (fun e' he' => nomatch he')
      | cons top rest =>
        have htail : ∀ sl, sl ∈ rest → sl ∈ s.stack := by
          intro sl hsl; rw [hs]; exact List.mem_cons_of_mem _ hsl
        cases top with
        | inflight c => rw [goParse_inflight env n s c rest hcb' hs]; exact h
        | filled fc =>
          cases fc with
          | noop =>
            rw [goParse_noop env n s rest hcb' hs]
            exact ih _ (slotErr_of_fields env hslot htail rfl)
              (logErr_of_fields env h rfl (fun x hx => hx) (fun x hx => hx))
          | fail e =>
            rw [goParse_fail env n s e rest hcb' hs]
            refine finish_logErr env _ _
              (logErr_of_fields env h rfl (fun x hx => hx) (fun x hx => hx)) ?_
            intro e' he'
            have hee : e = e' := Option.some.inj he'
            subst hee
            have hmem : Slot.filled (.fail e) ∈ s.stack := by
              rw [hs]; exact List.mem_cons_self _ _
            obtain ⟨fn, hfn, herr⟩ := hslot e (Or.inr hmem)
            exact Or.inl ⟨fn, hfn, herr⟩
          | work fn src =>
            cases hps : processSingleFile env fn (some src) with
            | error e =>
              rw [goParse_work_err env n s fn src e rest hcb' hs hps]
              refine finish_logErr env _ _
                (logErr_of_fields env h rfl (fun x hx => hx)
                  (fun x hx => List.mem_append_left _ hx)) ?_
              intro e' he'
              have hee : e = e' := Option.some.inj he'
              subst hee
              exact Or.inr ⟨(fn, some src), by simp, hps⟩
            | ok imps =>
              rw [goParse_work_ok env n s fn src imps rest hcb' hs hps]
              exact ih _
                (dispatchList_slotErr env _ _ (slotErr_of_fields env hslot htail rfl))
                (dispatchList_logErr env _ _
                  (logErr_of_fields env h rfl (fun x hx => hx)
                    (fun x hx => List.mem_append_left _ hx)))

theorem goParse_fetchInv (env : Env) :
    ∀ fuel s, FetchInv s → FetchInv (goParse env fuel s) := by
  intro fuel
  induction fuel with
  | zero => intro s h; exact h
  | succ n ih =>
    intro s h
    by_cases hcb : s.callbackCalled = true
    · rw [goParse_of_cb env _ s hcb]; exact h
    · have hcb' : s.callbackCalled = false := by simpa using hcb
      cases hs : s.stack with
      | nil =>
        rw [goParse_nil env n s hcb' hs]
        exact finish_fetchInv none s h
      | cons top rest =>
        cases top with
        | inflight c => rw [goParse_inflight env n s c rest hcb' hs]; exact h
        | filled fc =>
          cases fc with
          | noop =>
            rw [goParse_noop env n s rest hcb' hs]
            exact ih _ (fetchInv_of_fields h rfl (fun x hx => hx))
          | fail e =>
            rw [goParse_fail env n s e rest hcb' hs]
            exact finish_fetchInv _ _ (fetchInv_of_fields h rfl (fun x hx => hx))
          | work fn src =>
            cases hps : processSingleFile env fn (some src) with
            | error e =>
              rw [goParse_work_err env n s fn src e rest hcb' hs hps]
              exact finish_fetchInv _ _ (fetchInv_of_fields h rfl (fun x hx => hx))
            | ok imps =>
              rw [goParse_work_ok env n s fn src imps rest hcb' hs hps]
              exact ih _ (dispatchList_fetchInv env _ _
                (fetchInv_of_fields h rfl (fun x hx => hx)))

theorem fillSlot_slotErr (env : Env) (i : Nat) (c : FillResult) (s : LoadState)
    (hi : s.stack[i]? = some (.inflight c)) (h : SlotErrOK env s) :
    SlotErrOK env (fillSlot i c s) := by
  intro e he
  have hinflight : Slot.inflight c ∈ s.stack := by
    have hlt : i < s.stack.length := (List.getElem?_eq_some.mp hi).1
    have heq : s.stack[i] = Slot.inflight c := (List.getElem?_eq_some.mp hi).2
    rw [← heq]
    exact s.stack.getElem_mem hlt
  refine h e ?_
  rcases he with he | he
  · rcases List.mem_or_eq_of_mem_set he with hm | heq
    · exact Or.inl hm
    · simp at heq
  · rcases List.mem_or_eq_of_mem_set he with hm | heq
    · exact Or.inr hm
    · have hc : c = .fail e := (Slot.filled.inj heq).symm
      subst hc
      exact Or.inl hinflight

theorem dispatchList_stack (env : Env) (items : List (String × Bool)) (s : LoadState) :
    (dispatchList env items s).stack = s.stack ∨
    ∃ c rest, (dispatchList env items s).stack = Slot.inflight c :: rest := by
  induction items generalizing s with
  | nil => exact Or.inl rfl
  | cons p rest ih =>
    have hd : dispatchList env (p :: rest) s =
        dispatchList env rest (fetchOneFile env p.1 p.2 s) := rfl
    rcases ih (fetchOneFile env p.1 p.2 s) with h | h
    · obtain ⟨c, hc⟩ := fetchOneFile_stack env p.1 p.2 s
      exact Or.inr ⟨c, s.stack, by rw [hd, h, hc]⟩
    · obtain ⟨c, r, hc⟩ := h
      exact Or.inr ⟨c, r, by rw [hd, hc]⟩

theorem dispatchInitial_eq (env : Env) (fns : List String) (s : LoadState) :
    dispatchInitial env fns s =
      dispatchList env (fns.reverse.filterMap fun fn =>
        (resolveInitial env fn).map fun r => (r, false)) s := by
  unfold dispatchInitial dispatchList
  generalize fns.reverse = l
  induction l generalizing s with
  | nil => rfl
  | cons fn rest ih =>
    cases hr : resolveInitial env fn with
    | some r =>
      simp only [List.foldl_cons, List.filterMap_cons, hr, Option.map_some']
      exact ih _
    | none =>
      simp only [List.foldl_cons, List.filterMap_cons, hr, Option.map_none']
      exact ih _

theorem loadInit_inv (env : Env) (fns : List String) :
    LoadInv env (loadInit env fns) := by
  have base0 : WfLog (⟨[], [], false, [], [], [], []⟩ : LoadState) :=
    ⟨fun _ => rfl, fun h => nomatch h⟩
  have base1 : SlotErrOK env (⟨[], [], false, [], [], [], []⟩ : LoadState) := by
    intro e he
    rcases he with he | he <;> cases he
  have base2 : LogErrOK env (⟨[], [], false, [], [], [], []⟩ : LoadState) := by
    intro e b hmem; cases hmem
  have base3 : FetchInv (⟨[], [], false, [], [], [], []⟩ : LoadState) :=
    ⟨List.nodup_nil, fun g hg => nomatch hg⟩
  simp only [loadInit]
  rw [dispatchInitial_eq]
  set items := fns.reverse.filterMap fun fn =>
    (resolveInitial env fn).map fun r => (r, false) with hitems
  set s1 := dispatchList env items ⟨[], [], false, [], [], [], []⟩ with hs1
  have hwf : WfLog s1 := by
    have hd := dispatchList_logs env items ⟨[], [], false, [], [], [], []⟩
    exact wfLog_of_eq _ _ hd.1 hd.2.1 base0
  have hslot : SlotErrOK env s1 := dispatchList_slotErr env items _ base1
  have hlog : LogErrOK env s1 := dispatchList_logErr env items _ base2
  have hfetch : FetchInv s1 := dispatchList_fetchInv env items _ base3
  split
  · refine ⟨Or.inl (finish_callbackCalled none s1), finish_wfLog none s1 hwf,
      finish_slotErr env none s1 hslot,
      finish_logErr env none s1 hlog (fun e' he' => nomatch he'),
      finish_fetchInv none s1 hfetch⟩
  · rename_i hlen
    refine ⟨?_, hwf, hslot, hlog, hfetch⟩
    right
    rcases dispatchList_stack env items ⟨[], [], false, [], [], [], []⟩ with h | h
    · exact absurd (by rw [← hs1] at h; rw [h]; rfl) hlen
    · rw [← hs1] at h
      exact h

theorem doParseWork_of_cb (env : Env) (s : LoadState)
    (hcb : s.callbackCalled = true) : doParseWork env s = s :=
  goParse_of_cb env _ s hcb

theorem step_inv (env : Env) {s s' : LoadState} (h : LoadInv env s)
    (hst : Step env s s') : LoadInv env s' := by
  cases hst with
  | fill i c hi =>
    obtain ⟨hhead, hwf, hslot, hlog, hfetch⟩ := h
    have hwf' : WfLog (fillSlot i c s) := wfLog_of_eq _ s rfl rfl hwf
    have hslot' := fillSlot_slotErr env i c s hi hslot
    have hlog' : LogErrOK env (fillSlot i c s) :=
      logErr_of_fields env hlog rfl (fun x hx => hx) (fun x hx => hx)
    have hfetch' : FetchInv (fillSlot i c s) :=
      fetchInv_of_fields hfetch rfl (fun x hx => hx)
    exact ⟨goParse_cb_or_inflight env _ _ (Nat.lt_succ_self _),
      goParse_wfLog env _ _ hwf', goParse_slotErr env _ _ hslot',
      goParse_logErr env _ _ hslot' hlog', goParse_fetchInv env _ _ hfetch'⟩

theorem reachable_inv (env : Env) (fns : List String) (s : LoadState)
    (h : Reachable env fns s) : LoadInv env s := by
  induction h with
  | refl => exact loadInit_inv env fns
  | tail _ hstep ih => exact step_inv env ih hstep

theorem step_frozen (env : Env) {s s' : LoadState}
    (hcb : s.callbackCalled = true) (hst : Step env s s') :
    s'.callbackCalled = true ∧ s'.processLog = s.processLog ∧
    s'.callbackLog = s.callbackLog := by
  cases hst with
  | fill i c hi =>
    have hcb' : (fillSlot i c s).callbackCalled = true := hcb
    rw [doParseWork_of_cb env _ hcb']
    exact ⟨hcb', rfl, rfl⟩

theorem rtg_frozen (env : Env) {s s' : LoadState}
    (hcb : s.callbackCalled = true)
    (h : Relation.ReflTransGen (Step env) s s') :
    s'.callbackCalled = true ∧ s'.processLog = s.processLog ∧
    s'.callbackLog = s.callbackLog := by
  induction h with
  | refl => exact ⟨hcb, rfl, rfl⟩
  | tail _ hstep ih =>
    obtain ⟨h1, h2, h3⟩ := ih
    obtain ⟨g1, g2, g3⟩ := step_frozen env h1 hstep
    exact ⟨g1, g2.trans h2, g3.trans h3⟩

/-! ## Claim theorems on the loader -/

theorem fetchSingleFileSync_dispatchLog (env : Env) (st : SyncState) (fn : String) :
    (fetchSingleFileSync env st fn).1.dispatchLog = st.dispatchLog := by
  unfold fetchSingleFileSync
  split
  · rfl
  · split
    · rfl
    · split <;> rfl

theorem fetchSingleFileSync_error (env : Env) (st : SyncState) (fn : String)
    (st2 : SyncState) (e : String)
    (h : fetchSingleFileSync env st fn = (st2, .error e)) :
    env.fsRead fn = .error e := by
  unfold fetchSingleFileSync at h
  split at h
  · simp at h
  · split at h
    · simp at h
    · split at h
      · rename_i heq
        rw [heq]
        simp at h
        rw [h.2]
      · simp at h

theorem loadSyncLoop_threw (env : Env) :
    ∀ fuel st stack st' e, loadSyncLoop env fuel st stack = (st', .threw e) →
      (∃ fn, (fn, false) ∈ st'.dispatchLog ∧ env.fsRead fn = .error e) ∨
      (∃ p ∈ st'.processLog, processSingleFile env p.1 p.2 = .error e) := by
  intro fuel
  induction fuel with
  | zero =>
    intro st stack st' e h
    cases stack with
    | nil => simp [loadSyncLoop] at h
    | cons top rest => simp [loadSyncLoop] at h
  | succ n ih =>
    intro st stack st' e h
    cases stack with
    | nil => simp [loadSyncLoop] at h
    | cons top rest =>
      obtain ⟨fn, weak⟩ := top
      rw [loadSyncLoop] at h
      cases hf : fetchSingleFileSync env
          { st with dispatchLog := st.dispatchLog ++ [(fn, weak)] } fn with
      | mk st2 res =>
        rw [hf] at h
        cases res with
        | error e2 =>
          cases weak with
          | true =>
            simp only [if_pos rfl] at h
            exact ih st2 rest st' e h
          | false =>
            simp only [Bool.false_eq_true, if_neg] at h
            have hst : st2 = st' := congrArg Prod.fst h
            have hout : SyncOutcome.threw e2 = SyncOutcome.threw e := congrArg Prod.snd h
            have hee : e2 = e := SyncOutcome.threw.inj hout
            subst hee; subst hst
            left
            refine ⟨fn, ?_, fetchSingleFileSync_error env _ fn st2 e2 hf⟩
            have hd : st2.dispatchLog = st.dispatchLog ++ [(fn, false)] := by
              have := fetchSingleFileSync_dispatchLog env
                { st with dispatchLog := st.dispatchLog ++ [(fn, false)] } fn
              rw [hf] at this
              exact this
            rw [hd]
            simp
        | ok osrc =>
          dsimp only at h
          cases hps : processSingleFile env fn osrc with
          | error e2 =>
            rw [hps] at h
            have hst : { st2 with processLog := st2.processLog ++ [(fn, osrc)] } = st' :=
              congrArg Prod.fst h
            have hout : SyncOutcome.threw e2 = SyncOutcome.threw e := congrArg Prod.snd h
            have hee : e2 = e := SyncOutcome.threw.inj hout
            subst hee
            right
            refine ⟨(fn, osrc), ?_, hps⟩
            rw [← hst]
            simp
          | ok imps =>
            rw [hps] at h
            exact ih _ _ st' e h

/-- C1: for every collaborator environment, every list of initial
filenames (including the empty one) and every interleaving of
asynchronous fetch completions, once every pending completion has been
delivered (no in-flight slot remains) the user callback has been
invoked exactly once, with either `(null, root)` or `(error, null)`;
and from the moment the callback has fired, any further completions
cause no further `processSingleFile` invocation and no further
callback invocation. -/
theorem load_callback_exactly_once (env : Env) (filenames : List String)
    (s : LoadState) (hs : Reachable env filenames s) :
    (Quiescent s → s.callbackLog.length = 1 ∧
      ∀ ent ∈ s.callbackLog, ent = (none, true) ∨ ∃ e, ent = (some e, false)) ∧
    (s.callbackCalled = true → ∀ s', Relation.ReflTransGen (Step env) s s' →
      s'.processLog = s.processLog ∧ s'.callbackLog = s.callbackLog) := by
  obtain ⟨hhead, hwf, _, _, _⟩ := reachable_inv env filenames s hs
  constructor
  · intro hq
    have hcb : s.callbackCalled = true := by
      rcases hhead with h | ⟨c, rest, hc⟩
      · exact h
      · exact absurd rfl (hq (Slot.inflight c) (by rw [hc]; exact List.mem_cons_self _ _) c)
    obtain ⟨ent, hent, hshape⟩ := hwf.2 hcb
    constructor
    · rw [hent]; rfl
    · intro ent' hent'
      rw [hent, List.mem_singleton] at hent'
      subst hent'
      rcases hshape with h | ⟨e, he⟩
      · exact Or.inl h
      · exact Or.inr ⟨e, he⟩
  · intro hcb s' hs'
    obtain ⟨_, h2, h3⟩ := rtg_frozen env hcb hs'
    exact ⟨h2, h3⟩

theorem load_callback_exactly_once_witness :
    (Quiescent (loadInit envDup []) → (loadInit envDup []).callbackLog.length = 1 ∧
      ∀ ent ∈ (loadInit envDup []).callbackLog,
        ent = (none, true) ∨ ∃ e, ent = (some e, false)) ∧
    ((loadInit envDup []).callbackCalled = true →
      ∀ s', Relation.ReflTransGen (Step envDup) (loadInit envDup []) s' →
        s'.processLog = (loadInit envDup []).processLog ∧
        s'.callbackLog = (loadInit envDup []).callbackLog) :=
  load_callback_exactly_once envDup [] (loadInit envDup [])
    Relation.ReflTransGen.refl

/-- C9: the resolved filename is recorded in `files` before the fetch
collaborator is invoked, and the fetch collaborator is dispatched at
most once per resolved filename in any reachable state of an
asynchronous load — regardless of concurrent requests for the same
file and of fetch outcomes. -/
theorem fetch_dispatched_at_most_once (env : Env) (filenames : List String)
    (s : LoadState) (hs : Reachable env filenames s) :
    s.fetchLog.Nodup ∧ ∀ fn ∈ s.fetchLog, fn ∈ s.files := by
  have h := (reachable_inv env filenames s hs).2.2.2.2
  exact ⟨h.1, h.2⟩

theorem fetch_dispatched_at_most_once_witness :
    (loadInit envDup []).fetchLog.Nodup ∧
    ∀ fn ∈ (loadInit envDup []).fetchLog, fn ∈ (loadInit envDup []).files :=
  fetch_dispatched_at_most_once envDup [] (loadInit envDup [])
    Relation.ReflTransGen.refl

/-- C3, counterexample: under `envWeakParse` the only failure in the
whole load is the *weak* import `w` failing to parse, yet the callback
fires with that error instead of `(null, root)` — weak-import *parse*
failures are not swallowed by the code. -/
theorem weak_parse_failure_fails_load :
    Reachable envWeakParse ["a"] weakParseRun ∧ Quiescent weakParseRun ∧
    weakParseRun.dispatchLog = [("a", false), ("w", true)] ∧
    weakParseRun.callbackLog = [(some "parse failure in weak import", false)] := by
  refine ⟨?_, ?_, rfl, rfl⟩
  · have h1 : Step envWeakParse (loadInit envWeakParse ["a"])
        (doParseWork envWeakParse (fillSlot 0 (.work "a" (.text "A"))
          (loadInit envWeakParse ["a"]))) :=
      Step.fill _ 0 _ (by rfl)
    have h2 : Step envWeakParse
        (doParseWork envWeakParse (fillSlot 0 (.work "a" (.text "A"))
          (loadInit envWeakParse ["a"])))
        weakParseRun :=
      Step.fill _ 0 _ (by rfl)
    exact Relation.ReflTransGen.tail
      (Relation.ReflTransGen.tail Relation.ReflTransGen.refl h1) h2
  · intro sl hsl c
    rw [show weakParseRun.stack = [] from rfl] at hsl
    exact absurd hsl (List.not_mem_nil sl)

/-- C3, amended: a weak import whose *fetch* fails never fails the
load: in any reachable state of the asynchronous loader, an error
delivered to the callback stems from the fetch failure of a *non-weak*
dispatch or from a `processSingleFile` failure (parse, `JSON.parse`,
or the undefined-source `TypeError`) — weak-import *parse* failures do
surface; and likewise for the error thrown by the synchronous
loader. -/
theorem weak_fetch_failures_swallowed (env : Env) (filenames : List String)
    (s : LoadState) (hs : Reachable env filenames s) :
    (∀ e b, (some e, b) ∈ s.callbackLog →
      (∃ fn, (fn, false) ∈ s.dispatchLog ∧ env.fetchRes fn = .error e) ∨
      (∃ p ∈ s.processLog, processSingleFile env p.1 p.2 = .error e)) ∧
    (∀ fuel st out, loadSyncRun env fuel filenames = (st, out) →
      ∀ e, out = .threw e →
        (∃ fn, (fn, false) ∈ st.dispatchLog ∧ env.fsRead fn = .error e) ∨
        (∃ p ∈ st.processLog, processSingleFile env p.1 p.2 = .error e)) := by
  constructor
  · intro e b hmem
    exact (reachable_inv env filenames s hs).2.2.2.1 e b hmem
  · intro fuel st out h e hout
    subst hout
    exact loadSyncLoop_threw env fuel _ _ st e h

theorem weak_fetch_failures_swallowed_witness :
    ((∀ e b, (some e, b) ∈ (loadInit envDup []).callbackLog →
      (∃ fn, (fn, false) ∈ (loadInit envDup []).dispatchLog ∧
        envDup.fetchRes fn = .error e) ∨
      (∃ p ∈ (loadInit envDup []).processLog,
        processSingleFile envDup p.1 p.2 = .error e)) ∧
    (∀ fuel st out, loadSyncRun envDup fuel [] = (st, out) →
      ∀ e, out = .threw e →
        (∃ fn, (fn, false) ∈ st.dispatchLog ∧ envDup.fsRead fn = .error e) ∨
        (∃ p ∈ st.processLog, processSingleFile envDup p.1 p.2 = .error e))) :=
  weak_fetch_failures_swallowed envDup [] (loadInit envDup [])
    Relation.ReflTransGen.refl

/-- C10: an initial filename or a parsed import (weak or strong) with
no bundled match and a `null` `resolvePath` result is silently skipped:
the asynchronous and synchronous loads are identical to the loads
without that file, and the import never enters the resolved-import
list (hence no fetch and no error). -/
theorem unresolvable_imports_skipped (env : Env) (fn origin imp : String)
    (l1 l2 : List String) (il1 il2 : List String) (w : Bool)
    (hfn : resolveInitial env fn = none)
    (himp : resolveImport env origin imp = none) :
    loadInit env (l1 ++ fn :: l2) = loadInit env (l1 ++ l2) ∧
    (∀ fuel, loadSyncRun env fuel (l1 ++ fn :: l2) = loadSyncRun env fuel (l1 ++ l2)) ∧
    resolveImportList env origin (il1 ++ imp :: il2) w =
      resolveImportList env origin (il1 ++ il2) w := by
  refine ⟨?_, ?_, ?_⟩
  · have hd : dispatchInitial env (l1 ++ fn :: l2)
        (⟨[], [], false, [], [], [], []⟩ : LoadState) =
        dispatchInitial env (l1 ++ l2) ⟨[], [], false, [], [], [], []⟩ := by
      rw [dispatchInitial_eq, dispatchInitial_eq]
      congr 1
      simp [List.reverse_append, List.filterMap_append, List.filterMap_cons, hfn]
    simp only [loadInit]
    rw [hd]
  · intro fuel
    unfold loadSyncRun
    congr 1
    simp [List.filterMap_append, List.filterMap_cons, hfn]
  · unfold resolveImportList
    simp [List.filterMap_append, List.filterMap_cons, himp]

theorem unresolvable_imports_skipped_witness :
    loadInit envNull (["a"] ++ "x" :: []) = loadInit envNull (["a"] ++ []) ∧
    (∀ fuel, loadSyncRun envNull fuel (["a"] ++ "x" :: []) =
      loadSyncRun envNull fuel (["a"] ++ [])) ∧
    resolveImportList envNull "a" (["b"] ++ "x" :: []) true =
      resolveImportList envNull "a" (["b"] ++ []) true :=
  unresolvable_imports_skipped envNull "x" "a" "x" ["a"] [] ["b"] [] true
    (by rfl) (by rfl)

/-- C8 (failing evaluation): the synchronous loader does *not* treat a
repeated request for the same resolved filename as a no-op —
`fetchSingleFileSync` returns `undefined`, which `processSingleFile`
dereferences (`source.options`), throwing a `TypeError` out of
`loadSync` even though the file had loaded fine the first time. -/
theorem loadSync_duplicate_file_throws :
    loadSyncRun envDup 10 ["a.proto", "a.proto"] =
      (⟨["a.proto"],
        [("a.proto", some (.text "message A{}")), ("a.proto", none)],
        [("a.proto", false), ("a.proto", false)],
        ["a.proto"]⟩,
       .threw jsTypeErrorUndefinedSource) := rfl

/-! ## Deferred extension resolution (C7) -/

theorem findType_path_eq {ts : List TypeRec} {p : List String} {t : TypeRec}
    (h : findType ts p = some t) : t.path = p := by
  unfold findType at h
  have := List.find?_some h
  simpa using this

theorem lookupType_path {ts : List TypeRec} {scope : List String}
    {name : String} {t : TypeRec} (h : lookupType ts scope name = some t) :
    findType ts t.path = some t := by
  unfold lookupType at h
  revert h
  generalize scope.length = k
  induction k with
  | zero =>
    intro h0
    unfold lookupTypeGo at h0
    rw [findType_path_eq h0]
    exact h0
  | succ n ih =>
    intro h0
    unfold lookupTypeGo at h0
    cases hft : findType ts (scope.take (n+1) ++ splitOnDot name) with
    | some u =>
      rw [hft] at h0
      have hu : u = t := Option.some.inj h0
      subst hu
      rw [findType_path_eq hft]
      exact hft
    | none =>
      rw [hft] at h0
      exact ih h0

theorem findType_addField {ts : List TypeRec} {path : List String}
    {t : TypeRec} (fld : SisterField) (h : findType ts path = some t) :
    findType (addFieldToType ts path fld) path =
      some { t with fields := t.fields ++ [fld] } := by
  induction ts with
  | nil => simp [findType] at h
  | cons u us ih =>
    unfold findType at h ⊢
    rw [show addFieldToType (u :: us) path fld =
        (if u.path = path then { u with fields := u.fields ++ [fld] } else u) ::
          addFieldToType us path fld from rfl]
    by_cases hu : u.path = path
    · rw [@List.find?_cons_of_pos TypeRec (fun x => decide (x.path = path)) u _
        (by simp [hu])] at h
      have ht : u = t := Option.some.inj h
      subst ht
      rw [if_pos hu]
      rw [@List.find?_cons_of_pos TypeRec (fun x => decide (x.path = path))
        { u with fields := u.fields ++ [fld] } _ (by simp [hu])]
    · rw [@List.find?_cons_of_neg TypeRec (fun x => decide (x.path = path)) u _
        (by simp [hu])] at h
      rw [if_neg hu]
      rw [@List.find?_cons_of_neg TypeRec (fun x => decide (x.path = path)) u _
        (by simp [hu])]
      exact ih h

theorem tryHandleExtension_none {root : RootSchema} {f : ExtField}
    (h : lookupType root.types f.parentPath f.extend = none) :
    tryHandleExtension root f = none := by
  unfold tryHandleExtension
  rw [h]

theorem retryFold_spec (ds : List ExtField) :
    ∀ (r : RootSchema) (fails0 succs0 : List ExtField),
      ((ds.foldl retryStep (r, fails0, succs0)).2.1.length +
        (ds.foldl retryStep (r, fails0, succs0)).2.2.length =
        fails0.length + succs0.length + ds.length) ∧
      ∀ g ∈ (ds.foldl retryStep (r, fails0, succs0)).2.1, g ∈ fails0 ∨ g ∈ ds := by
  induction ds with
  | nil =>
    intro r f0 s0
    exact ⟨by simp, fun g hg => Or.inl hg⟩
  | cons d rest ih =>
    intro r f0 s0
    rw [List.foldl_cons]
    cases ht : tryHandleExtension r d with
    | some pair =>
      obtain ⟨r', d'⟩ := pair
      have hstep : retryStep (r, f0, s0) d = (r', f0, s0 ++ [d']) := by
        unfold retryStep
        rw [ht]
      rw [hstep]
      obtain ⟨hl, hm⟩ := ih r' f0 (s0 ++ [d'])
      refine ⟨?_, fun g hg => ?_⟩
      · simp only [List.length_append, List.length_cons, List.length_nil] at hl ⊢
        omega
      · rcases hm g hg with h | h
        · exact Or.inl h
        · exact Or.inr (List.mem_cons_of_mem _ h)
    | none =>
      have hstep : retryStep (r, f0, s0) d = (r, f0 ++ [d], s0) := by
        unfold retryStep
        rw [ht]
      rw [hstep]
      obtain ⟨hl, hm⟩ := ih r (f0 ++ [d]) s0
      refine ⟨?_, fun g hg => ?_⟩
      · simp only [List.length_append, List.length_cons, List.length_nil] at hl ⊢
        omega
      · rcases hm g hg with h | h
        · rcases List.mem_append.mp h with h | h
          · exact Or.inl h
          · rw [List.mem_singleton] at h
            subst h
            exact Or.inr (List.mem_cons_self _ _)
        · exact Or.inr (List.mem_cons_of_mem _ h)

/-- C7: adding an extension field whose `extend` target is found in the
declaring parent's scope creates a sister field inside the target —
carrying the extending field's id, type, rule and options, named by its
fully-qualified name, with `declaringField`/`extensionField`
cross-links; if the target already has a field of that name the
operation is a no-op; on lookup failure the field joins
`Root.deferred`; and adding a new `Type` retries every deferred entry,
removing the successes and keeping exactly the failures. -/
theorem extension_resolution (root : RootSchema) (f fdup fd : ExtField)
    (t tdup tAdd : TypeRec) (root' : RootSchema) (fails succs : List ExtField)
    (hf : lookupType root.types f.parentPath f.extend = some t)
    (hfresh : (t.fields.find? fun g => g.name = f.fullName).isSome = false)
    (hdup : lookupType root.types fdup.parentPath fdup.extend = some tdup)
    (hdupname : (tdup.fields.find? fun g => g.name = fdup.fullName).isSome = true)
    (hfd : lookupType root.types fd.parentPath fd.extend = none)
    (hretry : retryDeferred { root with types := root.types ++ [tAdd] } =
      (root', fails, succs)) :
    (tryHandleExtension root f =
      some ({ root with types := addFieldToType root.types t.path (sisterOf f) },
            { f with extensionField := some t.path }) ∧
     ∃ t', findType (addFieldToType root.types t.path (sisterOf f)) t.path = some t' ∧
       sisterOf f ∈ t'.fields ∧ (sisterOf f).name = f.fullName ∧
       (sisterOf f).id = f.id ∧ (sisterOf f).ftype = f.ftype ∧
       (sisterOf f).rule = f.rule ∧ (sisterOf f).options = f.options ∧
       (sisterOf f).declaringField = some f.fullName) ∧
    tryHandleExtension root fdup = some (root, fdup) ∧
    handleAddField root fd = ({ root with deferred := root.deferred ++ [fd] }, fd) ∧
    (handleAddType root tAdd = root' ∧ root'.deferred = fails ∧
     fails.length + succs.length = root.deferred.length ∧
     ∀ g ∈ fails, g ∈ root.deferred) := by
  refine ⟨⟨?_, ?_⟩, ?_, ?_, ?_, ?_, ?_, ?_⟩
  · unfold tryHandleExtension
    rw [hf]
    dsimp only
    rw [if_neg]
    dsimp only [sisterOf]
    rw [hfresh]
    exact Bool.false_ne_true
  · have h1 := lookupType_path hf
    have h2 := findType_addField (sisterOf f) h1
    exact ⟨_, h2, List.mem_append_right _ (List.mem_singleton_self _),
      rfl, rfl, rfl, rfl, rfl, rfl⟩
  · unfold tryHandleExtension
    rw [hdup]
    dsimp only
    rw [if_pos]
    dsimp only [sisterOf]
    exact hdupname
  · unfold handleAddField
    rw [tryHandleExtension_none hfd]
  · unfold handleAddType
    rw [hretry]
  · have ha := congrArg Prod.fst hretry
    have hb := congrArg (fun p : RootSchema × List ExtField × List ExtField => p.2.1) hretry
    simp only [retryDeferred] at ha hb
    rw [← ha]
    exact hb
  · have hb := congrArg (fun p : RootSchema × List ExtField × List ExtField => p.2.1) hretry
    have hc := congrArg (fun p : RootSchema × List ExtField × List ExtField => p.2.2) hretry
    simp only [retryDeferred] at hb hc
    have hspec := (retryFold_spec root.deferred
      ({ root with types := root.types ++ [tAdd], deferred := [] }) [] []).1
    rw [← hb, ← hc]
    simpa using hspec
  · intro g hg
    have hb := congrArg (fun p : RootSchema × List ExtField × List ExtField => p.2.1) hretry
    simp only [retryDeferred] at hb
    rw [← hb] at hg
    have hspec := (retryFold_spec root.deferred
      ({ root with types := root.types ++ [tAdd], deferred := [] }) [] []).2 g hg
    rcases hspec with h | h
    · cases h
    · exact h

theorem extension_resolution_witness :
    (tryHandleExtension c7root c7f =
      some ({ c7root with
                types := addFieldToType c7root.types c7t.path (sisterOf c7f) },
            { c7f with extensionField := some c7t.path }) ∧
     ∃ t', findType (addFieldToType c7root.types c7t.path (sisterOf c7f))
         c7t.path = some t' ∧
       sisterOf c7f ∈ t'.fields ∧ (sisterOf c7f).name = c7f.fullName ∧
       (sisterOf c7f).id = c7f.id ∧ (sisterOf c7f).ftype = c7f.ftype ∧
       (sisterOf c7f).rule = c7f.rule ∧ (sisterOf c7f).options = c7f.options ∧
       (sisterOf c7f).declaringField = some c7f.fullName) ∧
    tryHandleExtension c7root c7fdup = some (c7root, c7fdup) ∧
    handleAddField c7root c7fd =
      ({ c7root with deferred := c7root.deferred ++ [c7fd] }, c7fd) ∧
    (handleAddType c7root c7tAdd = c7root' ∧ c7root'.deferred = [c7q] ∧
     ([c7q] : List ExtField).length + ([] : List ExtField).length =
       c7root.deferred.length ∧
     ∀ g ∈ [c7q], g ∈ c7root.deferred) :=
  extension_resolution c7root c7f c7fdup c7fd c7t c7t c7tAdd c7root' [c7q] []
    (by rfl) (by rfl) (by rfl) (by rfl) (by rfl) (by rfl)

/-! ## Packed/unpacked interchange (C6): wire-level groundwork -/

theorem getElem?_middle (pre mid post : List Nat) (p : Nat) (hp : p < mid.length) :
    (pre ++ mid ++ post)[pre.length + p]? = mid[p]? := by
  rw [List.append_assoc, List.getElem?_append_right (Nat.le_add_right _ _),
    Nat.add_sub_cancel_left, List.getElem?_append, if_pos hp]

theorem encodeVarintAux_ne_nil (count n : Nat) :
    encodeVarintAux (count + 1) n ≠ [] := by
  unfold encodeVarintAux
  split <;> simp

theorem readVarintAux_encode :
    ∀ (count n mult acc : Nat) (pre post : List Nat), n < 128 ^ (count + 1) →
      readVarintAux (count + 1)
        ⟨pre ++ encodeVarintAux (count + 1) n ++ post, pre.length⟩ mult acc =
      .ok (acc + n * mult,
        ⟨pre ++ encodeVarintAux (count + 1) n ++ post,
         pre.length + (encodeVarintAux (count + 1) n).length⟩) := by
  intro count
  induction count with
  | zero =>
    intro n mult acc pre post hn
    have hlt : n < 128 := by simpa using hn
    have henc : encodeVarintAux 1 n = [n] := by
      rw [show encodeVarintAux 1 n =
        if n < 128 then [n] else (128 + n % 128) :: encodeVarintAux 0 (n / 128) from rfl]
      rw [if_pos hlt]
    rw [henc]
    have hget : (pre ++ [n] ++ post)[pre.length]? = some n := by
      have h0 := getElem?_middle pre [n] post 0 (by simp)
      simpa using h0
    unfold readVarintAux
    rw [show (⟨pre ++ [n] ++ post, pre.length⟩ : Reader).buf[
        (⟨pre ++ [n] ++ post, pre.length⟩ : Reader).pos]? =
      (pre ++ [n] ++ post)[pre.length]? from rfl, hget]
    simp only [if_pos hlt]
    simp
  | succ k ih =>
    intro n mult acc pre post hn
    by_cases hlt : n < 128
    · have henc : encodeVarintAux (k + 2) n = [n] := by
        rw [show encodeVarintAux (k + 2) n = if n < 128 then [n]
          else (128 + n % 128) :: encodeVarintAux (k + 1) (n / 128) from rfl]
        rw [if_pos hlt]
      rw [henc]
      have hget : (pre ++ [n] ++ post)[pre.length]? = some n := by
        have h0 := getElem?_middle pre [n] post 0 (by simp)
        simpa using h0
      unfold readVarintAux
      rw [show (⟨pre ++ [n] ++ post, pre.length⟩ : Reader).buf[
          (⟨pre ++ [n] ++ post, pre.length⟩ : Reader).pos]? =
        (pre ++ [n] ++ post)[pre.length]? from rfl, hget]
      simp only [if_pos hlt]
      simp
    · have henc : encodeVarintAux (k + 2) n =
          (128 + n % 128) :: encodeVarintAux (k + 1) (n / 128) := by
        rw [show encodeVarintAux (k + 2) n = if n < 128 then [n]
          else (128 + n % 128) :: encodeVarintAux (k + 1) (n / 128) from rfl]
        rw [if_neg hlt]
      rw [henc]
      have hget : (pre ++ ((128 + n % 128) :: encodeVarintAux (k + 1) (n / 128)) ++
          post)[pre.length]? = some (128 + n % 128) := by
        have h0 := getElem?_middle pre
          ((128 + n % 128) :: encodeVarintAux (k + 1) (n / 128)) post 0 (by simp)
        simpa using h0
      unfold readVarintAux
      rw [show (⟨pre ++ ((128 + n % 128) :: encodeVarintAux (k + 1) (n / 128)) ++ post,
          pre.length⟩ : Reader).buf[
          (⟨pre ++ ((128 + n % 128) :: encodeVarintAux (k + 1) (n / 128)) ++ post,
          pre.length⟩ : Reader).pos]? =
        (pre ++ ((128 + n % 128) :: encodeVarintAux (k + 1) (n / 128)) ++
          post)[pre.length]? from rfl, hget]
      dsimp only
      rw [if_neg (by omega)]
      have hdiv : n / 128 < 128 ^ (k + 1) := by
        have h2 : n < 128 * 128 ^ (k + 1) := by
          have hp : (128 : Nat) ^ (k + 2) = 128 * 128 ^ (k + 1) := by ring
          omega
        exact Nat.div_lt_of_lt_mul h2
      have hr : (⟨pre ++ ((128 + n % 128) :: encodeVarintAux (k + 1) (n / 128)) ++ post,
            pre.length + 1⟩ : Reader) =
          ⟨(pre ++ [128 + n % 128]) ++ encodeVarintAux (k + 1) (n / 128) ++ post,
            (pre ++ [128 + n % 128]).length⟩ := by
        simp [List.append_assoc]
      rw [hr]
      have hres := ih (n / 128) (mult * 128) (acc + (128 + n % 128) % 128 * mult)
        (pre ++ [128 + n % 128]) post hdiv
      rw [hres]
      have hval : acc + (128 + n % 128) % 128 * mult + n / 128 * (mult * 128) =
          acc + n * mult := by
        have hm : (128 + n % 128) % 128 = n % 128 := by omega
        rw [hm]
        have hs := Nat.div_add_mod n 128
        have hx : n % 128 * mult + n / 128 * (mult * 128) = n * mult := by
          calc n % 128 * mult + n / 128 * (mult * 128)
              = (128 * (n / 128) + n % 128) * mult := by ring
            _ = n * mult := by rw [hs]
        omega
      simp only [Except.ok.injEq, Prod.mk.injEq, Reader.mk.injEq]
      refine ⟨hval, ?_, ?_⟩
      · simp [List.append_assoc]
      · simp
        omega

theorem readVarint_encode (n : Nat) (pre post : List Nat) (hn : n < 128 ^ 10) :
    readVarint ⟨pre ++ encodeVarint n ++ post, pre.length⟩ =
      .ok (n, ⟨pre ++ encodeVarint n ++ post,
        pre.length + (encodeVarint n).length⟩) := by
  have h := readVarintAux_encode 9 n 1 0 pre post hn
  unfold readVarint encodeVarint
  simpa using h

theorem readUint32_encode (n : Nat) (pre post : List Nat) (hn : n < 2 ^ 32) :
    readUint32 ⟨pre ++ encodeVarint n ++ post, pre.length⟩ =
      .ok (n, ⟨pre ++ encodeVarint n ++ post,
        pre.length + (encodeVarint n).length⟩) := by
  have hn' : n < 128 ^ 10 := by
    have hb : (2 : Nat) ^ 32 ≤ 128 ^ 10 := by norm_num
    omega
  unfold readUint32
  rw [readVarint_encode n pre post hn']
  have h32 : (2 : Nat) ^ 32 = 4294967296 := by norm_num
  rw [h32] at hn
  have hmod := Nat.mod_eq_of_lt hn
  simp [Except.map, hmod]

theorem readVarintAux_shift :
    ∀ (count mult acc : Nat) (chunk : List Nat) (p v q : Nat) (pre post : List Nat),
      readVarintAux count ⟨chunk, p⟩ mult acc = .ok (v, ⟨chunk, q⟩) →
      readVarintAux count ⟨pre ++ chunk ++ post, pre.length + p⟩ mult acc =
        .ok (v, ⟨pre ++ chunk ++ post, pre.length + q⟩) := by
  intro count
  induction count with
  | zero =>
    intro mult acc chunk p v q pre post h
    simp [readVarintAux] at h
  | succ k ih =>
    intro mult acc chunk p v q pre post h
    unfold readVarintAux at h ⊢
    cases hb : chunk[p]? with
    | none =>
      rw [show (⟨chunk, p⟩ : Reader).buf[(⟨chunk, p⟩ : Reader).pos]? = chunk[p]?
        from rfl, hb] at h
      simp at h
    | some b =>
      have hp : p < chunk.length := by
        by_contra hcon
        rw [List.getElem?_eq_none (by omega)] at hb
        cases hb
      rw [show (⟨chunk, p⟩ : Reader).buf[(⟨chunk, p⟩ : Reader).pos]? = chunk[p]?
        from rfl, hb] at h
      dsimp only at h
      rw [show (⟨pre ++ chunk ++ post, pre.length + p⟩ : Reader).buf[
          (⟨pre ++ chunk ++ post, pre.length + p⟩ : Reader).pos]? =
        (pre ++ chunk ++ post)[pre.length + p]? from rfl,
        getElem?_middle pre chunk post p hp, hb]
      dsimp only
      by_cases hlt : b < 128
      · rw [if_pos hlt] at h ⊢
        have h1 : acc + b * mult = v := (Prod.mk.inj (Except.ok.inj h)).1
        have h2 : p + 1 = q := congrArg Reader.pos (Prod.mk.inj (Except.ok.inj h)).2
        rw [h1, ← h2, Nat.add_assoc]
      · rw [if_neg hlt] at h ⊢
        have := ih (mult * 128) (acc + b % 128 * mult) chunk (p + 1) v q pre post h
        rw [Nat.add_assoc]
        exact this

theorem readVarint_shift (chunk : List Nat) (p v q : Nat) (pre post : List Nat)
    (h : readVarint ⟨chunk, p⟩ = .ok (v, ⟨chunk, q⟩)) :
    readVarint ⟨pre ++ chunk ++ post, pre.length + p⟩ =
      .ok (v, ⟨pre ++ chunk ++ post, pre.length + q⟩) :=
  readVarintAux_shift 10 1 0 chunk p v q pre post h

theorem readFixed_buf :
    ∀ (k : Nat) (r : Reader) (v : Nat) (r' : Reader),
      readFixed k r = .ok (v, r') → r'.buf = r.buf := by
  intro k
  induction k with
  | zero =>
    intro r v r' h
    unfold readFixed at h
    exact (congrArg Reader.buf (Prod.mk.inj (Except.ok.inj h)).2).symm
  | succ k ih =>
    intro r v r' h
    unfold readFixed at h
    cases hb : r.buf[r.pos]? with
    | none => rw [hb] at h; simp at h
    | some b =>
      rw [hb] at h
      dsimp only at h
      cases hrec : readFixed k { r with pos := r.pos + 1 } with
      | error e => rw [hrec] at h; simp at h
      | ok pr =>
        obtain ⟨rest, r2⟩ := pr
        rw [hrec] at h
        dsimp only at h
        have h2 : r2 = r' := (Prod.mk.inj (Except.ok.inj h)).2
        have hb2 := ih _ _ _ hrec
        rw [← h2]
        exact hb2

theorem readFixed_shift :
    ∀ (k : Nat) (chunk : List Nat) (p v q : Nat) (pre post : List Nat),
      readFixed k ⟨chunk, p⟩ = .ok (v, ⟨chunk, q⟩) →
      readFixed k ⟨pre ++ chunk ++ post, pre.length + p⟩ =
        .ok (v, ⟨pre ++ chunk ++ post, pre.length + q⟩) := by
  intro k
  induction k with
  | zero =>
    intro chunk p v q pre post h
    unfold readFixed at h ⊢
    have h1 : (0 : Nat) = v := (Prod.mk.inj (Except.ok.inj h)).1
    have h2 : p = q := congrArg Reader.pos (Prod.mk.inj (Except.ok.inj h)).2
    rw [← h1, ← h2]
  | succ k ih =>
    intro chunk p v q pre post h
    unfold readFixed at h ⊢
    cases hb : chunk[p]? with
    | none =>
      rw [show (⟨chunk, p⟩ : Reader).buf[(⟨chunk, p⟩ : Reader).pos]? = chunk[p]?
        from rfl, hb] at h
      simp at h
    | some b =>
      have hp : p < chunk.length := by
        by_contra hcon
        rw [List.getElem?_eq_none (by omega)] at hb
        cases hb
      rw [show (⟨chunk, p⟩ : Reader).buf[(⟨chunk, p⟩ : Reader).pos]? = chunk[p]?
        from rfl, hb] at h
      dsimp only at h
      rw [show (⟨pre ++ chunk ++ post, pre.length + p⟩ : Reader).buf[
          (⟨pre ++ chunk ++ post, pre.length + p⟩ : Reader).pos]? =
        (pre ++ chunk ++ post)[pre.length + p]? from rfl,
        getElem?_middle pre chunk post p hp, hb]
      dsimp only
      cases hrec : readFixed k (⟨chunk, p + 1⟩ : Reader) with
      | error e =>
        rw [hrec] at h
        simp at h
      | ok pr =>
        obtain ⟨rest, r'⟩ := pr
        have hbuf : r'.buf = chunk := readFixed_buf k _ _ _ hrec
        obtain ⟨q', hq'⟩ : ∃ q', r' = ⟨chunk, q'⟩ :=
          ⟨r'.pos, by rw [← hbuf]⟩
        subst hq'
        rw [hrec] at h
        dsimp only at h
        have hres := ih chunk (p + 1) rest q' pre post hrec
        rw [Nat.add_assoc, hres]
        dsimp only
        have h1 : b + 256 * rest = v := (Prod.mk.inj (Except.ok.inj h)).1
        have h2 : q' = q := congrArg Reader.pos (Prod.mk.inj (Except.ok.inj h)).2
        rw [h1, h2]

theorem readVarintAux_buf :
    ∀ (count : Nat) (r : Reader) (mult acc v : Nat) (r' : Reader),
      readVarintAux count r mult acc = .ok (v, r') → r'.buf = r.buf := by
  intro count
  induction count with
  | zero => intro r mult acc v r' h; simp [readVarintAux] at h
  | succ k ih =>
    intro r mult acc v r' h
    unfold readVarintAux at h
    cases hb : r.buf[r.pos]? with
    | none => rw [hb] at h; simp at h
    | some b =>
      rw [hb] at h
      dsimp only at h
      by_cases hlt : b < 128
      · rw [if_pos hlt] at h
        exact (congrArg Reader.buf (Prod.mk.inj (Except.ok.inj h)).2).symm
      · rw [if_neg hlt] at h
        exact ih { r with pos := r.pos + 1 } _ _ _ _ h

theorem readUint32_shift (chunk : List Nat) (p u q : Nat) (pre post : List Nat)
    (h : readUint32 ⟨chunk, p⟩ = .ok (u, ⟨chunk, q⟩)) :
    readUint32 ⟨pre ++ chunk ++ post, pre.length + p⟩ =
      .ok (u, ⟨pre ++ chunk ++ post, pre.length + q⟩) := by
  unfold readUint32 at h ⊢
  cases hv : readVarint ⟨chunk, p⟩ with
  | error e => rw [hv] at h; simp [Except.map] at h
  | ok pv =>
    obtain ⟨w, r₀⟩ := pv
    have hbuf : r₀.buf = chunk := readVarintAux_buf 10 _ 1 0 _ _ hv
    obtain ⟨p', hp'⟩ : ∃ p', r₀ = ⟨chunk, p'⟩ := ⟨r₀.pos, by rw [← hbuf]⟩
    subst hp'
    rw [hv] at h
    simp only [Except.map] at h
    have hval : w % 2 ^ 32 = u := (Prod.mk.inj (Except.ok.inj h)).1
    have hq : p' = q := congrArg Reader.pos (Prod.mk.inj (Except.ok.inj h)).2
    rw [readVarint_shift chunk p w p' pre post hv]
    simp only [Except.map]
    rw [hval, hq]

theorem drop_take_middle (pre chunk post : List Nat) (p len : Nat)
    (h : p + len ≤ chunk.length) :
    ((pre ++ chunk ++ post).drop (pre.length + p)).take len =
      (chunk.drop p).take len := by
  rw [List.append_assoc, List.drop_append,
    List.drop_append_of_le_length (by omega),
    List.take_append_of_le_length (by rw [List.length_drop]; omega)]

theorem readDelim_shift (chunk : List Nat) (p : Nat) (bs : List Nat) (q : Nat)
    (pre post : List Nat)
    (h : readDelim ⟨chunk, p⟩ = .ok (bs, ⟨chunk, q⟩)) :
    readDelim ⟨pre ++ chunk ++ post, pre.length + p⟩ =
      .ok (bs, ⟨pre ++ chunk ++ post, pre.length + q⟩) := by
  unfold readDelim at h ⊢
  cases hu : readUint32 ⟨chunk, p⟩ with
  | error e => rw [hu] at h; simp at h
  | ok pr =>
    obtain ⟨len, r'⟩ := pr
    have hbuf : r'.buf = chunk := by
      unfold readUint32 at hu
      cases hv : readVarint ⟨chunk, p⟩ with
      | error e => rw [hv] at hu; simp [Except.map] at hu
      | ok pv =>
        obtain ⟨w, r₀⟩ := pv
        rw [hv] at hu
        simp only [Except.map] at hu
        have hr : r₀ = r' := (Prod.mk.inj (Except.ok.inj hu)).2
        have hb := readVarintAux_buf 10 _ 1 0 _ _ hv
        rw [← hr]
        exact hb
    obtain ⟨p', hp'⟩ : ∃ p', r' = ⟨chunk, p'⟩ := ⟨r'.pos, by rw [← hbuf]⟩
    subst hp'
    rw [hu] at h
    replace h : (if p' + len ≤ chunk.length then
        Except.ok ((chunk.drop p').take len, (⟨chunk, p' + len⟩ : Reader))
        else Except.error DecErr.truncated) = Except.ok (bs, (⟨chunk, q⟩ : Reader)) := h
    by_cases hle : p' + len ≤ chunk.length
    · rw [if_pos hle] at h
      have hbs : (chunk.drop p').take len = bs := (Prod.mk.inj (Except.ok.inj h)).1
      have hq : p' + len = q := congrArg Reader.pos (Prod.mk.inj (Except.ok.inj h)).2
      rw [readUint32_shift chunk p len p' pre post hu]
      show (if pre.length + p' + len ≤ (pre ++ chunk ++ post).length then
          Except.ok (((pre ++ chunk ++ post).drop (pre.length + p')).take len,
            (⟨pre ++ chunk ++ post, pre.length + p' + len⟩ : Reader))
          else Except.error DecErr.truncated) =
        Except.ok (bs, (⟨pre ++ chunk ++ post, pre.length + q⟩ : Reader))
      rw [if_pos (by simp; omega)]
      rw [drop_take_middle pre chunk post p' len hle, hbs]
      rw [Nat.add_assoc, hq]
    · rw [if_neg hle] at h
      simp at h

theorem readVarint_buf (r : Reader) (w : Nat) (r' : Reader)
    (h : readVarint r = .ok (w, r')) : r'.buf = r.buf :=
  readVarintAux_buf 10 r 1 0 w r' h

theorem readUint32_buf (r : Reader) (w : Nat) (r' : Reader)
    (h : readUint32 r = .ok (w, r')) : r'.buf = r.buf := by
  unfold readUint32 at h
  cases hv : readVarint r with
  | error e => rw [hv] at h; simp [Except.map] at h
  | ok pv =>
    obtain ⟨n, r₀⟩ := pv
    rw [hv] at h
    simp only [Except.map] at h
    have hr : r₀ = r' := (Prod.mk.inj (Except.ok.inj h)).2
    rw [← hr]
    exact readVarint_buf r n r₀ hv

theorem readDelim_buf (r : Reader) (bs : List Nat) (r' : Reader)
    (h : readDelim r = .ok (bs, r')) : r'.buf = r.buf := by
  unfold readDelim at h
  cases hu : readUint32 r with
  | error e => rw [hu] at h; simp at h
  | ok pr =>
    obtain ⟨len, r₀⟩ := pr
    rw [hu] at h
    replace h : (if r₀.pos + len ≤ r₀.buf.length then
        Except.ok ((r₀.buf.drop r₀.pos).take len, { r₀ with pos := r₀.pos + len })
        else Except.error DecErr.truncated) = Except.ok (bs, r') := h
    by_cases hle : r₀.pos + len ≤ r₀.buf.length
    · rw [if_pos hle] at h
      have hr : ({ r₀ with pos := r₀.pos + len } : Reader) = r' :=
        (Prod.mk.inj (Except.ok.inj h)).2
      have hb : r'.buf = r₀.buf := by rw [← hr]
      rw [hb]
      exact readUint32_buf r len r₀ hu
    · rw [if_neg hle] at h
      simp at h

theorem map_shift_ok {α : Type} (g : Reader → Except DecErr (α × Reader))
    (f : α → PVal)
    (hbuf : ∀ r w r', g r = .ok (w, r') → Reader.buf r' = Reader.buf r)
    (hsh : ∀ chunk p w q pre post, g ⟨chunk, p⟩ = .ok (w, ⟨chunk, q⟩) →
      g ⟨pre ++ chunk ++ post, pre.length + p⟩ =
        .ok (w, ⟨pre ++ chunk ++ post, pre.length + q⟩))
    (chunk : List Nat) (p : Nat) (v : PVal) (q : Nat) (pre post : List Nat)
    (h : (g ⟨chunk, p⟩).map (fun pr => (f pr.1, pr.2)) = .ok (v, ⟨chunk, q⟩)) :
    (g ⟨pre ++ chunk ++ post, pre.length + p⟩).map (fun pr => (f pr.1, pr.2)) =
      .ok (v, ⟨pre ++ chunk ++ post, pre.length + q⟩) := by
  cases hg : g ⟨chunk, p⟩ with
  | error e => rw [hg] at h; simp [Except.map] at h
  | ok pr =>
    obtain ⟨w, r₀⟩ := pr
    have hb : r₀.buf = chunk := hbuf _ _ _ hg
    obtain ⟨p', hp'⟩ : ∃ p', r₀ = ⟨chunk, p'⟩ := ⟨r₀.pos, by rw [← hb]⟩
    subst hp'
    rw [hg] at h
    simp only [Except.map] at h
    have hv : f w = v := (Prod.mk.inj (Except.ok.inj h)).1
    have hq : p' = q := congrArg Reader.pos (Prod.mk.inj (Except.ok.inj h)).2
    rw [hsh chunk p w p' pre post hg]
    simp only [Except.map]
    rw [hv, hq]

theorem readScalar_shift (t : ScalarType) (chunk : List Nat) (p : Nat) (v : PVal)
    (q : Nat) (pre post : List Nat)
    (h : readScalar t ⟨chunk, p⟩ = .ok (v, ⟨chunk, q⟩)) :
    readScalar t ⟨pre ++ chunk ++ post, pre.length + p⟩ =
      .ok (v, ⟨pre ++ chunk ++ post, pre.length + q⟩) := by
  cases t with
  | int32 =>
    exact map_shift_ok readVarint (fun n => .vInt (asInt32 n))
      readVarint_buf readVarint_shift chunk p v q pre post h
  | uint32 =>
    exact map_shift_ok readVarint (fun n => .vNat (n % 2 ^ 32))
      readVarint_buf readVarint_shift chunk p v q pre post h
  | sint32 =>
    exact map_shift_ok readVarint (fun n => .vInt (zig32 n))
      readVarint_buf readVarint_shift chunk p v q pre post h
  | int64 =>
    exact map_shift_ok readVarint (fun n => .vInt (asInt64 n))
      readVarint_buf readVarint_shift chunk p v q pre post h
  | uint64 =>
    exact map_shift_ok readVarint (fun n => .vNat (n % 2 ^ 64))
      readVarint_buf readVarint_shift chunk p v q pre post h
  | sint64 =>
    exact map_shift_ok readVarint (fun n => .vInt (zig64 n))
      readVarint_buf readVarint_shift chunk p v q pre post h
  | boolT =>
    exact map_shift_ok readVarint (fun n => .vBool (decide (n % 2 ^ 32 ≠ 0)))
      readVarint_buf readVarint_shift chunk p v q pre post h
  | fixed32 =>
    exact map_shift_ok (readFixed 4) (fun n => .vNat n)
      (readFixed_buf 4) (readFixed_shift 4) chunk p v q pre post h
  | sfixed32 =>
    exact map_shift_ok (readFixed 4) (fun n => .vInt (asInt32 n))
      (readFixed_buf 4) (readFixed_shift 4) chunk p v q pre post h
  | float =>
    exact map_shift_ok (readFixed 4) (fun n => .vF32 n)
      (readFixed_buf 4) (readFixed_shift 4) chunk p v q pre post h
  | fixed64 =>
    exact map_shift_ok (readFixed 8) (fun n => .vNat n)
      (readFixed_buf 8) (readFixed_shift 8) chunk p v q pre post h
  | sfixed64 =>
    exact map_shift_ok (readFixed 8) (fun n => .vInt (asInt64 n))
      (readFixed_buf 8) (readFixed_shift 8) chunk p v q pre post h
  | double =>
    exact map_shift_ok (readFixed 8) (fun n => .vF64 n)
      (readFixed_buf 8) (readFixed_shift 8) chunk p v q pre post h
  | stringT =>
    exact map_shift_ok readDelim (fun bs => .vStr bs)
      readDelim_buf readDelim_shift chunk p v q pre post h
  | bytesT =>
    exact map_shift_ok readDelim (fun bs => .vBytes bs)
      readDelim_buf readDelim_shift chunk p v q pre post h

theorem readScalar_nil (t : ScalarType) :
    readScalar t ⟨[], 0⟩ = .error .truncated := by
  cases t <;> rfl

theorem chunkOK_ne_nil (t : ScalarType) (c : List Nat) (v : PVal)
    (h : chunkOK t c v) : c ≠ [] := by
  intro hc
  subst hc
  unfold chunkOK at h
  rw [readScalar_nil] at h
  cases h

theorem encodeVarint_length_pos (n : Nat) : 0 < (encodeVarint n).length := by
  have h := encodeVarintAux_ne_nil 9 n
  unfold encodeVarint
  exact List.length_pos.mpr h

theorem wireBasic_ne_len (t : ScalarType) (h : packedOf t = true) :
    wireBasic t ≠ LEN_TYPE := by
  cases t <;> simp [wireBasic, LEN_TYPE, packedOf] at h ⊢

theorem findCase_repPrim_primary (name : String) (fid : Nat) (t : ScalarType)
    (po : Bool) :
    findCase [repPrimField name fid t po] (tag fid (wireBasic t)) =
      some (repPrimField name fid t po, .primaryC) := by
  simp [findCase, fieldMatches, primaryTag, repPrimField]

theorem findCase_repPrim_packed (name : String) (fid : Nat) (t : ScalarType)
    (po : Bool) (hpk : packedOf t = true) :
    findCase [repPrimField name fid t po] (tag fid LEN_TYPE) =
      some (repPrimField name fid t po, .packedC) := by
  have hwb := wireBasic_ne_len t hpk
  have hne : tag fid LEN_TYPE ≠ tag fid (wireBasic t) := by
    simp only [tag]
    omega
  simp [findCase, fieldMatches, primaryTag, repPrimField, hasPackedCase,
    packedCapable, effScalar, hpk, hne]

theorem checkRequired_repPrim (name : String) (fid : Nat) (t : ScalarType)
    (po : Bool) (m : Message) :
    checkRequired [repPrimField name fid t po] m = .ok m := rfl

theorem unpackedBytes_cons (fid wt : Nat) (c : List Nat) (chunks : List (List Nat)) :
    unpackedBytes fid wt (c :: chunks) =
      encodeVarint (tag fid wt) ++ c ++ unpackedBytes fid wt chunks := by
  simp [unpackedBytes]

theorem unpackedBytes_length_ge (fid wt : Nat) (chunks : List (List Nat)) :
    chunks.length ≤ (unpackedBytes fid wt chunks).length := by
  induction chunks with
  | nil => simp [unpackedBytes]
  | cons c rest ih =>
    rw [unpackedBytes_cons]
    have hp := encodeVarint_length_pos (tag fid wt)
    simp only [List.length_append, List.length_cons]
    omega

theorem decodeGo_loop_exit (reg : List MType) (fuel : Nat) (mt : MType)
    (climit : Nat) (m : Message) (r : Reader) (h : ¬ r.pos < climit) :
    decodeGo reg (fuel + 1) (.loopJ mt climit m) r = .ok (.msgR m r) := by
  unfold decodeGo
  rw [if_neg h]

theorem decodeGo_loop_prim (reg : List MType) (fuel : Nat) (mt : MType)
    (climit : Nat) (m : Message) (r r1 r2 : Reader) (tg : Nat) (f : FieldDesc)
    (st : ScalarType) (v : PVal)
    (hlt : r.pos < climit)
    (hu : readUint32 r = .ok (tg, r1))
    (hg : mt.group = false)
    (hfc : findCase mt.fields tg = some (f, .primaryC))
    (hrule : f.rule = .repeatedR)
    (hkind : f.kind = .prim st)
    (hrs : readScalar st r1 = .ok (v, r2)) :
    decodeGo reg (fuel + 1) (.loopJ mt climit m) r =
      decodeGo reg fuel (.loopJ mt climit
        (setOwn m f.name (.listV (curList m f.name ++ [.prim v])))) r2 := by
  conv_lhs => unfold decodeGo
  rw [if_pos hlt, hu]
  dsimp only
  rw [if_neg (by simp [hg]), hfc]
  dsimp only
  rw [hrule]
  dsimp only
  rw [hkind]
  dsimp only [effScalar]
  rw [hrs]

theorem decodeGo_loop_packed (reg : List MType) (fuel : Nat) (mt : MType)
    (climit : Nat) (m : Message) (r r1 r2 r3 : Reader) (tg len : Nat)
    (f : FieldDesc) (st : ScalarType) (vs : List MVal)
    (hlt : r.pos < climit)
    (hu : readUint32 r = .ok (tg, r1))
    (hg : mt.group = false)
    (hfc : findCase mt.fields tg = some (f, .packedC))
    (hes : effScalar f.kind = some st)
    (hu2 : readUint32 r1 = .ok (len, r2))
    (hpk : readPackedF st (r2.buf.length + 1) (r2.pos + len) r2 (curList m f.name) =
      .ok (vs, r3)) :
    decodeGo reg (fuel + 1) (.loopJ mt climit m) r =
      decodeGo reg fuel (.loopJ mt climit (setOwn m f.name (.listV vs))) r3 := by
  conv_lhs => unfold decodeGo
  rw [if_pos hlt, hu]
  dsimp only
  rw [if_neg (by simp [hg]), hfc]
  dsimp only
  rw [hes]
  dsimp only
  rw [hu2]
  dsimp only
  rw [hpk]

theorem decodeGo_msg_none (reg : List MType) (fuel : Nat) (mt : MType)
    (r r' : Reader) (m m' : Message)
    (hloop : decodeGo reg fuel (.loopJ mt r.buf.length []) r = .ok (.msgR m r'))
    (hreq : checkRequired mt.fields m = .ok m') :
    decodeGo reg (fuel + 1) (.msgJ mt none) r = .ok (.msgR m' r') := by
  unfold decodeGo
  dsimp only
  rw [hloop]
  dsimp only
  rw [hreq]

theorem readPackedF_chunks (t : ScalarType) (chunks : List (List Nat)) (vs : List PVal)
    (hf : List.Forall₂ (chunkOK t) chunks vs) :
    ∀ (fuel : Nat) (pre post : List Nat) (acc : List MVal),
      chunks.flatten.length < fuel →
      readPackedF t fuel (pre.length + chunks.flatten.length)
        ⟨pre ++ chunks.flatten ++ post, pre.length⟩ acc =
      .ok (acc ++ vs.map MVal.prim,
        ⟨pre ++ chunks.flatten ++ post, pre.length + chunks.flatten.length⟩) := by
  induction hf with
  | nil =>
    intro fuel pre post acc hfuel
    obtain ⟨k, rfl⟩ : ∃ k, fuel = k + 1 := ⟨fuel - 1, by omega⟩
    unfold readPackedF
    rw [if_neg (by simp)]
    simp
  | @cons c v chunks' vs' h1 h2 ih =>
    intro fuel pre post acc hfuel
    obtain ⟨k, rfl⟩ : ∃ k, fuel = k + 1 := ⟨fuel - 1, by omega⟩
    have hclen : 0 < c.length := List.length_pos.mpr (chunkOK_ne_nil t c v h1)
    simp only [List.flatten_cons] at hfuel ⊢
    unfold readPackedF
    rw [if_pos (by simp only [List.length_append]; omega)]
    have hread := readScalar_shift t c 0 v c.length pre (chunks'.flatten ++ post) h1
    rw [Nat.add_zero] at hread
    have hbufeq : pre ++ c ++ (chunks'.flatten ++ post) =
        pre ++ (c ++ chunks'.flatten) ++ post := by
      simp [List.append_assoc]
    rw [hbufeq] at hread
    rw [hread]
    dsimp only
    have hk : chunks'.flatten.length < k := by
      simp only [List.length_append] at hfuel
      omega
    have hih := ih k (pre ++ c) post (acc ++ [MVal.prim v]) hk
    simp only [List.length_append, List.append_assoc, List.map_cons,
      List.singleton_append, Nat.add_assoc] at hih ⊢
    exact hih

theorem curList_inv (name : String) (m : Message) (L : List MVal)
    (hm : m = [] ∧ L = [] ∨ m = [(name, .listV L)]) :
    curList m name = L := by
  rcases hm with ⟨hm, hL⟩ | hm
  · subst hm; subst hL; rfl
  · subst hm
    cases L with
    | nil => simp [curList, getOwn, List.lookup]
    | cons x xs => simp [curList, getOwn, List.lookup]

theorem setOwn_inv (name : String) (m : Message) (L : List MVal) (x : MVal)
    (hm : m = [] ∧ L = [] ∨ m = [(name, .listV L)]) :
    setOwn m name x = [(name, x)] := by
  rcases hm with ⟨hm, _⟩ | hm <;> subst hm
  · rfl
  · simp [setOwn]

theorem wireBasic_le (t : ScalarType) : wireBasic t ≤ 5 := by
  cases t <;> simp [wireBasic]

theorem unpacked_chunks (name : String) (fid : Nat) (t : ScalarType) (po : Bool)
    (hfid : fid ≤ 2 ^ 29 - 1) (chunks : List (List Nat)) (vs : List PVal)
    (hf : List.Forall₂ (chunkOK t) chunks vs) :
    ∀ (fuel : Nat) (pre : List Nat) (m : Message) (L : List MVal),
      (m = [] ∧ L = [] ∨ m = [(name, .listV L)]) →
      chunks.length < fuel →
      ∃ mfin,
        decodeGo [] fuel
          (.loopJ (repPrimMType name fid t po)
            (pre.length + (unpackedBytes fid (wireBasic t) chunks).length) m)
          ⟨pre ++ unpackedBytes fid (wireBasic t) chunks, pre.length⟩ =
        .ok (.msgR mfin
          ⟨pre ++ unpackedBytes fid (wireBasic t) chunks,
            pre.length + (unpackedBytes fid (wireBasic t) chunks).length⟩) ∧
        (mfin = [] ∧ L ++ vs.map MVal.prim = [] ∨
         mfin = [(name, .listV (L ++ vs.map MVal.prim))]) := by
  induction hf with
  | nil =>
    intro fuel pre m L hm hfuel
    obtain ⟨k, rfl⟩ : ∃ k, fuel = k + 1 := ⟨fuel - 1, by omega⟩
    refine ⟨m, ?_, ?_⟩
    · rw [show unpackedBytes fid (wireBasic t) [] = [] from rfl]
      rw [decodeGo_loop_exit [] k (repPrimMType name fid t po) _ m _ (by simp)]
      simp
    · simp only [List.map_nil, List.append_nil]
      exact hm
  | @cons c v chunks' vs' h1 h2 ih =>
    intro fuel pre m L hm hfuel
    obtain ⟨k, rfl⟩ : ∃ k, fuel = k + 1 := ⟨fuel - 1, by omega⟩
    have htg : tag fid (wireBasic t) < 2 ^ 32 := by
      have hwb := wireBasic_le t
      simp only [tag]
      omega
    have henc := readUint32_encode (tag fid (wireBasic t)) pre
      (c ++ unpackedBytes fid (wireBasic t) chunks') htg
    have hbufeq : pre ++ encodeVarint (tag fid (wireBasic t)) ++
        (c ++ unpackedBytes fid (wireBasic t) chunks') =
        pre ++ unpackedBytes fid (wireBasic t) (c :: chunks') := by
      rw [unpackedBytes_cons]
      simp [List.append_assoc]
    rw [hbufeq] at henc
    have hrs := readScalar_shift t c 0 v c.length
      (pre ++ encodeVarint (tag fid (wireBasic t)))
      (unpackedBytes fid (wireBasic t) chunks') h1
    rw [Nat.add_zero] at hrs
    have hbufeq2 : pre ++ encodeVarint (tag fid (wireBasic t)) ++ c ++
        unpackedBytes fid (wireBasic t) chunks' =
        pre ++ unpackedBytes fid (wireBasic t) (c :: chunks') := by
      rw [unpackedBytes_cons]
      simp [List.append_assoc]
    rw [hbufeq2] at hrs
    rw [show (pre ++ encodeVarint (tag fid (wireBasic t))).length =
      pre.length + (encodeVarint (tag fid (wireBasic t))).length from by
        simp only [List.length_append]] at hrs
    have hlt : pre.length <
        pre.length + (unpackedBytes fid (wireBasic t) (c :: chunks')).length := by
      have hp := encodeVarint_length_pos (tag fid (wireBasic t))
      rw [unpackedBytes_cons]
      simp only [List.length_append]
      omega
    rw [decodeGo_loop_prim [] k (repPrimMType name fid t po)
      (pre.length + (unpackedBytes fid (wireBasic t) (c :: chunks')).length) m
      ⟨pre ++ unpackedBytes fid (wireBasic t) (c :: chunks'), pre.length⟩
      ⟨pre ++ unpackedBytes fid (wireBasic t) (c :: chunks'),
        pre.length + (encodeVarint (tag fid (wireBasic t))).length⟩
      ⟨pre ++ unpackedBytes fid (wireBasic t) (c :: chunks'),
        pre.length + (encodeVarint (tag fid (wireBasic t))).length + c.length⟩
      (tag fid (wireBasic t)) (repPrimField name fid t po) t v hlt henc rfl
      (findCase_repPrim_primary name fid t po) rfl rfl hrs]
    rw [show (repPrimField name fid t po).name = name from rfl]
    rw [curList_inv name m L hm, setOwn_inv name m L _ hm]
    have hk : chunks'.length < k := by
      simp only [List.length_cons] at hfuel
      omega
    have hih := ih k (pre ++ encodeVarint (tag fid (wireBasic t)) ++ c)
      [(name, .listV (L ++ [MVal.prim v]))] (L ++ [MVal.prim v]) (Or.inr rfl) hk
    rw [show (pre ++ encodeVarint (tag fid (wireBasic t)) ++ c) ++
        unpackedBytes fid (wireBasic t) chunks' =
        pre ++ unpackedBytes fid (wireBasic t) (c :: chunks') from by
      rw [unpackedBytes_cons]
      simp [List.append_assoc]] at hih
    rw [show (pre ++ encodeVarint (tag fid (wireBasic t)) ++ c).length =
      pre.length + (encodeVarint (tag fid (wireBasic t))).length + c.length from by
        simp only [List.length_append]] at hih
    rw [show pre.length + (encodeVarint (tag fid (wireBasic t))).length + c.length +
        (unpackedBytes fid (wireBasic t) chunks').length =
        pre.length + (unpackedBytes fid (wireBasic t) (c :: chunks')).length from by
      rw [unpackedBytes_cons]
      simp only [List.length_append]
      omega] at hih
    obtain ⟨mfin, heq, hprop⟩ := hih
    refine ⟨mfin, heq, ?_⟩
    have hlist : (L ++ [MVal.prim v]) ++ vs'.map MVal.prim =
        L ++ (v :: vs').map MVal.prim := by
      simp [List.append_assoc]
    rw [hlist] at hprop
    exact hprop

theorem decodeTop_unpacked (name : String) (fid : Nat) (t : ScalarType) (po : Bool)
    (hfid : fid ≤ 2 ^ 29 - 1) (chunks : List (List Nat)) (vs : List PVal)
    (hf : List.Forall₂ (chunkOK t) chunks vs) :
    ∃ mu,
      decodeTop [] (repPrimMType name fid t po)
        (unpackedBytes fid (wireBasic t) chunks) = .ok mu ∧
      fieldValue (repPrimField name fid t po) mu = .listV (vs.map MVal.prim) := by
  have hcount : chunks.length <
      2 * (unpackedBytes fid (wireBasic t) chunks).length + 1 := by
    have h := unpackedBytes_length_ge fid (wireBasic t) chunks
    omega
  obtain ⟨mfin, heq, hprop⟩ := unpacked_chunks name fid t po hfid chunks vs hf
    (2 * (unpackedBytes fid (wireBasic t) chunks).length + 1) [] [] []
    (Or.inl ⟨rfl, rfl⟩) hcount
  simp only [List.nil_append, List.length_nil, Nat.zero_add] at heq hprop
  have hmsg := decodeGo_msg_none []
    (2 * (unpackedBytes fid (wireBasic t) chunks).length + 1)
    (repPrimMType name fid t po)
    ⟨unpackedBytes fid (wireBasic t) chunks, 0⟩
    ⟨unpackedBytes fid (wireBasic t) chunks,
      (unpackedBytes fid (wireBasic t) chunks).length⟩
    mfin mfin heq (checkRequired_repPrim name fid t po mfin)
  refine ⟨mfin, ?_, ?_⟩
  · unfold decodeTop
    rw [show 2 * (unpackedBytes fid (wireBasic t) chunks).length + 2 =
      2 * (unpackedBytes fid (wireBasic t) chunks).length + 1 + 1 from rfl, hmsg]
  · rcases hprop with ⟨hnil, hLv⟩ | hcons
    · subst hnil
      rw [show (vs.map MVal.prim : List MVal) = [] from hLv]
      rfl
    · subst hcons
      simp [fieldValue, getOwn, List.lookup, repPrimField]

theorem packedBytes_length (fid : Nat) (chunks : List (List Nat)) :
    (packedBytes fid chunks).length =
      (encodeVarint (tag fid LEN_TYPE)).length +
      (encodeVarint chunks.flatten.length).length + chunks.flatten.length := by
  simp only [packedBytes, List.length_append]

theorem decodeTop_packed (name : String) (fid : Nat) (t : ScalarType) (po : Bool)
    (hfid : fid ≤ 2 ^ 29 - 1) (hpk : packedOf t = true)
    (chunks : List (List Nat)) (vs : List PVal)
    (hf : List.Forall₂ (chunkOK t) chunks vs)
    (hlen : chunks.flatten.length < 2 ^ 32) :
    ∃ mp,
      decodeTop [] (repPrimMType name fid t po) (packedBytes fid chunks) = .ok mp ∧
      fieldValue (repPrimField name fid t po) mp = .listV (vs.map MVal.prim) := by
  have htg2 : tag fid LEN_TYPE < 2 ^ 32 := by
    simp only [tag, LEN_TYPE]
    omega
  have henc1 := readUint32_encode (tag fid LEN_TYPE) []
    (encodeVarint chunks.flatten.length ++ chunks.flatten) htg2
  simp only [List.nil_append, List.length_nil, Nat.zero_add] at henc1
  rw [show encodeVarint (tag fid LEN_TYPE) ++
      (encodeVarint chunks.flatten.length ++ chunks.flatten) =
      packedBytes fid chunks from by
    simp [packedBytes, List.append_assoc]] at henc1
  have henc2 := readUint32_encode chunks.flatten.length
    (encodeVarint (tag fid LEN_TYPE)) chunks.flatten hlen
  rw [show encodeVarint (tag fid LEN_TYPE) ++ encodeVarint chunks.flatten.length ++
      chunks.flatten = packedBytes fid chunks from rfl] at henc2
  have hflat : chunks.flatten.length < (packedBytes fid chunks).length + 1 := by
    rw [packedBytes_length]
    omega
  have hpl := readPackedF_chunks t chunks vs hf ((packedBytes fid chunks).length + 1)
    (encodeVarint (tag fid LEN_TYPE) ++ encodeVarint chunks.flatten.length) [] [] hflat
  rw [List.append_nil] at hpl
  rw [show (encodeVarint (tag fid LEN_TYPE) ++ encodeVarint chunks.flatten.length) ++
      chunks.flatten = packedBytes fid chunks from rfl] at hpl
  rw [show ((encodeVarint (tag fid LEN_TYPE) ++
      encodeVarint chunks.flatten.length : List Nat)).length =
      (encodeVarint (tag fid LEN_TYPE)).length +
        (encodeVarint chunks.flatten.length).length from by
    simp only [List.length_append]] at hpl
  simp only [List.nil_append] at hpl
  have hB : 0 < (packedBytes fid chunks).length := by
    rw [packedBytes_length]
    have h1 := encodeVarint_length_pos (tag fid LEN_TYPE)
    omega
  have hstep := decodeGo_loop_packed [] (2 * (packedBytes fid chunks).length)
    (repPrimMType name fid t po) (packedBytes fid chunks).length []
    ⟨packedBytes fid chunks, 0⟩
    ⟨packedBytes fid chunks, (encodeVarint (tag fid LEN_TYPE)).length⟩
    ⟨packedBytes fid chunks, (encodeVarint (tag fid LEN_TYPE)).length +
      (encodeVarint chunks.flatten.length).length⟩
    ⟨packedBytes fid chunks, (encodeVarint (tag fid LEN_TYPE)).length +
      (encodeVarint chunks.flatten.length).length + chunks.flatten.length⟩
    (tag fid LEN_TYPE) chunks.flatten.length (repPrimField name fid t po) t
    (vs.map MVal.prim) hB henc1 rfl (findCase_repPrim_packed name fid t po hpk)
    rfl henc2 hpl
  rw [show setOwn [] (repPrimField name fid t po).name (.listV (vs.map MVal.prim)) =
    [(name, MVal.listV (vs.map MVal.prim))] from rfl] at hstep
  obtain ⟨j, hj⟩ : ∃ j, 2 * (packedBytes fid chunks).length = j + 1 :=
    ⟨2 * (packedBytes fid chunks).length - 1, by omega⟩
  rw [hj] at hstep
  rw [decodeGo_loop_exit [] j (repPrimMType name fid t po)
    (packedBytes fid chunks).length [(name, MVal.listV (vs.map MVal.prim))]
    ⟨packedBytes fid chunks, (encodeVarint (tag fid LEN_TYPE)).length +
      (encodeVarint chunks.flatten.length).length + chunks.flatten.length⟩
    (by dsimp only; rw [packedBytes_length fid chunks]; omega)] at hstep
  rw [← hj] at hstep
  have hmsg := decodeGo_msg_none [] (2 * (packedBytes fid chunks).length + 1)
    (repPrimMType name fid t po) ⟨packedBytes fid chunks, 0⟩
    ⟨packedBytes fid chunks, (encodeVarint (tag fid LEN_TYPE)).length +
      (encodeVarint chunks.flatten.length).length + chunks.flatten.length⟩
    [(name, MVal.listV (vs.map MVal.prim))] [(name, MVal.listV (vs.map MVal.prim))]
    hstep
    (checkRequired_repPrim name fid t po [(name, MVal.listV (vs.map MVal.prim))])
  refine ⟨[(name, MVal.listV (vs.map MVal.prim))], ?_, ?_⟩
  · unfold decodeTop
    rw [show 2 * (packedBytes fid chunks).length + 2 =
      2 * (packedBytes fid chunks).length + 1 + 1 from rfl, hmsg]
  · simp [fieldValue, getOwn, List.lookup, repPrimField]

/-- C6: for every packable repeated primitive field — regardless of the
schema's `[packed=...]` declaration — the generated tag table carries
both the per-value case at `tag(id, basic[type])` and the packed case at
`tag(id, 2)`, and a packed encoding and an unpacked encoding of the same
value sequence decode to identical lists. -/
theorem packed_unpacked_interchange (name : String) (fid : Nat) (t : ScalarType)
    (po : Bool) (chunks : List (List Nat)) (vs : List PVal)
    (hfid1 : 1 ≤ fid) (hfid2 : fid ≤ 2 ^ 29 - 1)
    (hpk : packedOf t = true)
    (hf : List.Forall₂ (chunkOK t) chunks vs)
    (hlen : chunks.flatten.length < 2 ^ 32) :
    (fieldMatches (repPrimField name fid t po) (tag fid (wireBasic t)) =
        some .primaryC ∧
     fieldMatches (repPrimField name fid t po) (tag fid LEN_TYPE) =
        some .packedC) ∧
    ∃ mu mp,
      decodeTop [] (repPrimMType name fid t po)
        (unpackedBytes fid (wireBasic t) chunks) = .ok mu ∧
      decodeTop [] (repPrimMType name fid t po) (packedBytes fid chunks) = .ok mp ∧
      fieldValue (repPrimField name fid t po) mu = .listV (vs.map MVal.prim) ∧
      fieldValue (repPrimField name fid t po) mp = .listV (vs.map MVal.prim) := by
  constructor
  · constructor
    · simp [fieldMatches, primaryTag, repPrimField]
    · have hwb := wireBasic_ne_len t hpk
      have hne : tag fid LEN_TYPE ≠ tag fid (wireBasic t) := by
        simp only [tag]
        omega
      simp [fieldMatches, primaryTag, repPrimField, hasPackedCase, packedCapable,
        effScalar, hpk, hne]
  · obtain ⟨mu, h1, h2⟩ := decodeTop_unpacked name fid t po hfid2 chunks vs hf
    obtain ⟨mp, h3, h4⟩ := decodeTop_packed name fid t po hfid2 hpk chunks vs hf hlen
    exact ⟨mu, mp, h1, h3, h2, h4⟩

theorem packed_unpacked_interchange_witness :
    (fieldMatches (repPrimField "xs" 1 .int32 false) (tag 1 (wireBasic .int32)) =
        some .primaryC ∧
     fieldMatches (repPrimField "xs" 1 .int32 false) (tag 1 LEN_TYPE) =
        some .packedC) ∧
    ∃ mu mp,
      decodeTop [] (repPrimMType "xs" 1 .int32 false)
        (unpackedBytes 1 (wireBasic .int32) [[1], [2], [3]]) = .ok mu ∧
      decodeTop [] (repPrimMType "xs" 1 .int32 false)
        (packedBytes 1 [[1], [2], [3]]) = .ok mp ∧
      fieldValue (repPrimField "xs" 1 .int32 false) mu =
        .listV ([PVal.vInt 1, PVal.vInt 2, PVal.vInt 3].map MVal.prim) ∧
      fieldValue (repPrimField "xs" 1 .int32 false) mp =
        .listV ([PVal.vInt 1, PVal.vInt 2, PVal.vInt 3].map MVal.prim) :=
  packed_unpacked_interchange "xs" 1 .int32 false [[1], [2], [3]]
    [.vInt 1, .vInt 2, .vInt 3] (by decide) (by decide) rfl
    (.cons rfl (.cons rfl (.cons rfl .nil))) (by decide)
